import Mathlib

set_option maxRecDepth 20000

/-! Shallow embedding of src/main.cpp of the rtd repository: a regex-to-DFA
compiler (classifier and concatenation expander, shunting-yard postfix
converter, Thompson NFA builder, epsilon eliminator, subset constructor).
C++ `usize` values stay far below 2^64 here (they index small arenas), so they
are modelled as `Nat`; the `u32` flag bitmask {VISITED, START, FINAL} is
modelled as a record of three booleans, since the program only ever sets,
clears and tests those three named bits. -/

/-- TokenType enum of the source. -/
inductive TokenType where
  | REGULAR
  | OPERATOR
  | LEFT_PAREN
  | RIGHT_PAREN
  | ERROR
deriving Repr, DecidableEq

/-- GraphNodeFlag bitmask of a state, as three named bits. -/
structure Flags where
  visited : Bool
  start : Bool
  final : Bool
deriving Repr, DecidableEq

/-- Transition: (destination state index, symbol). -/
structure Transition where
  dest : Nat
  symbol : Char
deriving Repr, DecidableEq

/-- Edge of the DFA-construction stage: (src id, dest id, symbol). -/
structure Edge where
  src : Nat
  dest : Nat
  symbol : Char
deriving Repr, DecidableEq

/-- Graph: adjacency lists, per-state flags, start id. -/
structure Graph where
  adj : List (List Transition)
  flags : List Flags
  start : Nat
deriving Repr, DecidableEq

/-- S_LAMBDA, the epsilon marker (the NUL character in the source). -/
def S_LAMBDA : Char := Char.ofNat 0

def OP_CONCAT : Char := '.'

def OP_UNION : Char := '|'

def OP_KLEENE : Char := '*'

def OP_PLUS : Char := '+'

def OP_OPT : Char := '?'

/-- OP_PREC table: 3 for unary postfix operators, 2 for concatenation,
1 for union, 0 otherwise. -/
def OP_PREC (c : Char) : Nat :=
  if c = OP_KLEENE ∨ c = OP_PLUS ∨ c = OP_OPT then 3
  else if c = OP_CONCAT then 2
  else if c = OP_UNION then 1
  else 0

/-- type_of: the global in_alphabet table is passed as the function alpha. -/
def type_of (alpha : Char → Bool) (token : Char) : TokenType :=
  if alpha token then .REGULAR
  else if OP_PREC token ≠ 0 then .OPERATOR
  else if token = '(' then .LEFT_PAREN
  else if token = ')' then .RIGHT_PAREN
  else .ERROR

/-- The ALL_ALPHANUMS macro: every character main's std::isalnum check lets
into in_alphabet is one of these. -/
def ALNUM_CHARS : List Char :=
  "abcdefghijklmnopqrstuvwxyzABCDEFGHIJKLMNOPQRSTUVWXYZ1234567890".toList

/-- main rejects any alphabet character that is not alphanumeric before
filling in_alphabet, so a run of the core always sees such an alphabet. -/
def valid_alphabet (alpha : Char → Bool) : Prop :=
  ∀ c, alpha c = true → c ∈ ALNUM_CHARS

/-- The ten concatenation-insertion cases of add_concatenation_op. -/
def needs_concat (alpha : Char → Bool) (a b : Char) : Bool :=
  decide (
    (type_of alpha a = TokenType.REGULAR ∧ type_of alpha b = TokenType.REGULAR) ∨
    (type_of alpha a = TokenType.REGULAR ∧ b = '(') ∨
    (a = OP_KLEENE ∧ type_of alpha b = TokenType.REGULAR) ∨
    (a = OP_KLEENE ∧ b = '(') ∨
    (a = OP_PLUS ∧ type_of alpha b = TokenType.REGULAR) ∨
    (a = OP_PLUS ∧ b = '(') ∨
    (a = OP_OPT ∧ type_of alpha b = TokenType.REGULAR) ∨
    (a = OP_OPT ∧ b = '(') ∨
    (a = ')' ∧ type_of alpha b = TokenType.REGULAR) ∨
    (a = ')' ∧ b = '('))

/-- Loop body of add_concatenation_op over the remaining characters, with the
previous character as first argument. -/
def add_concat_go (alpha : Char → Bool) : Char → List Char → List Char
  | _, [] => []
  | a, b :: r =>
    (if needs_concat alpha a b then [OP_CONCAT, b] else [b]) ++ add_concat_go alpha b r

/-- add_concatenation_op. -/
def add_concatenation_op (alpha : Char → Bool) : List Char → List Char
  | [] => []
  | a :: rest => a :: add_concat_go alpha a rest

/-- OPERATOR case of get_postfix: pop (to the output) the operators whose
precedence is not lower than the incoming token's, stopping at a left
parenthesis or the empty stack. Returns (output, remaining stack). -/
def pop_ops (token : Char) : List Char → List Char → List Char × List Char
  | out, [] => (out, [])
  | out, top :: rest =>
    if top = '(' then (out, top :: rest)
    else if OP_PREC top < OP_PREC token then (out, top :: rest)
    else pop_ops token (out ++ [top]) rest

/-- RIGHT_PAREN case of get_postfix: pop to the output until a left
parenthesis is found and discarded; none when the stack empties first. -/
def pop_until_lparen : List Char → List Char → Option (List Char × List Char)
  | _, [] => none
  | out, top :: rest =>
    if top = '(' then some (out, rest)
    else pop_until_lparen (out ++ [top]) rest

/-- End-of-input loop of get_postfix: pop all remaining operators to the
output; none if a left parenthesis remains. -/
def drain_ops : List Char → List Char → Option (List Char)
  | out, [] => some out
  | out, top :: rest => if top = '(' then none else drain_ops (out ++ [top]) rest

/-- One token of get_postfix's switch. State is (output, operator stack). -/
def sy_step (alpha : Char → Bool) (st : List Char × List Char) (token : Char) :
    Option (List Char × List Char) :=
  match type_of alpha token with
  | .REGULAR => some (st.1 ++ [token], st.2)
  | .OPERATOR =>
    let p := pop_ops token st.1 st.2
    some (p.1, token :: p.2)
  | .LEFT_PAREN => some (st.1, token :: st.2)
  | .RIGHT_PAREN => pop_until_lparen st.1 st.2
  | .ERROR => none

/-- The token loop of get_postfix. -/
def sy_run (alpha : Char → Bool) : List Char × List Char → List Char →
    Option (List Char × List Char)
  | st, [] => some st
  | st, c :: cs => (sy_step alpha st c).bind (fun st2 => sy_run alpha st2 cs)

/-- get_postfix (Dijkstra's shunting yard). -/
def postfix_of (alpha : Char → Bool) (infixStr : List Char) : Option (List Char) :=
  (sy_run alpha ([], []) infixStr).bind fun st => drain_ops st.1 st.2

/-- Dyck-style parenthesis check used to state C7: tracking the number of
currently open groups, a right parenthesis with no open group or a group left
open at the end makes the stream unbalanced. Characters are classified with
the program's own type_of. -/
def balanced_from (alpha : Char → Bool) : Nat → List Char → Bool
  | d, [] => d = 0
  | d, c :: cs =>
    match type_of alpha c with
    | .LEFT_PAREN => balanced_from alpha (d + 1) cs
    | .RIGHT_PAREN => decide (d ≠ 0) && balanced_from alpha (d - 1) cs
    | _ => balanced_from alpha d cs

/-- A two-letter alphabet used for concrete witnesses. -/
def alphaAB (c : Char) : Bool := decide (c = 'a' ∨ c = 'b')

/-- The one-letter alphabet {a} of the C5 scenario. -/
def alphaA (c : Char) : Bool := decide (c = 'a')

theorem alphaAB_valid : valid_alphabet alphaAB := by
  intro c hc
  have h : c = 'a' ∨ c = 'b' := of_decide_eq_true hc
  rcases h with h | h <;> subst h <;> decide

theorem alphaA_valid : valid_alphabet alphaA := by
  intro c hc
  have h : c = 'a' := of_decide_eq_true hc
  subst h; decide

/-- C10: over any validated (alphanumeric-only) alphabet, the dot character is
classified as an operator with precedence 2 (concatenation), never Invalid. -/
theorem c10_dot_always_concat (alpha : Char → Bool) (h : valid_alphabet alpha) :
    type_of alpha '.' = TokenType.OPERATOR ∧ OP_PREC '.' = 2 := by
  have hdot : alpha '.' = false := by
    cases hc : alpha '.' with
    | false => rfl
    | true => exact absurd (h _ hc) (by decide)
  refine ⟨?_, by decide⟩
  simp only [type_of, hdot, if_false, Bool.false_eq_true]
  decide

/-- C10 witness: the classification at the concrete alphabet {a, b}. -/
theorem c10_dot_always_concat_witness :
    type_of alphaAB '.' = TokenType.OPERATOR ∧ OP_PREC '.' = 2 :=
  c10_dot_always_concat alphaAB alphaAB_valid

/-! ## Thompson builder (get_nfa)

NFA nodes live in a heap; the embedding replaces raw pointers by indices into
an allocation-ordered arena. A null neighbour pointer is `none`. -/

/-- NFANode: two neighbour slots and their symbols (defaults: null / NUL). -/
structure NFANode where
  n0 : Option Nat
  n1 : Option Nat
  s0 : Char
  s1 : Char
deriving Repr, DecidableEq

/-- A value-initialized NFANode (new NFANode{} / new NFANode). -/
def zero_node : NFANode := ⟨none, none, S_LAMBDA, S_LAMBDA⟩

/-- NFAFragment: entry and exit node of a partial NFA. -/
structure NFAFragment where
  start : Nat
  finish : Nat
deriving Repr, DecidableEq

/-- The state of get_nfa's loop: the heap of nodes allocated so far and the
fragment stack (head = top). -/
structure NfaState where
  arena : List NFANode
  stack : List NFAFragment
deriving Repr, DecidableEq

/-- One token of get_nfa's loop. C++ allocations (`new`) append to the arena
in program order; an allocation followed immediately by a whole-node
assignment is embedded as allocation with the assigned value. -/
def nfa_step (st : NfaState) (token : Char) : Option NfaState :=
  if token = OP_CONCAT ∨ token = OP_UNION then
    match st.stack with
    | y :: x :: rest =>
      if token = OP_CONCAT then
        some ⟨st.arena.set x.finish ⟨some y.start, none, S_LAMBDA, S_LAMBDA⟩,
              ⟨x.start, y.finish⟩ :: rest⟩
      else
        let q := st.arena.length
        let f := st.arena.length + 1
        let a1 := st.arena ++ [⟨some x.start, some y.start, S_LAMBDA, S_LAMBDA⟩, zero_node]
        let a2 := a1.set x.finish ⟨some f, none, S_LAMBDA, S_LAMBDA⟩
        some ⟨a2.set y.finish ⟨some f, none, S_LAMBDA, S_LAMBDA⟩, ⟨q, f⟩ :: rest⟩
    | _ => none
  else if token = OP_KLEENE ∨ token = OP_PLUS ∨ token = OP_OPT then
    match st.stack with
    | x :: rest =>
      let f := st.arena.length
      let q := st.arena.length + 1
      if token = OP_KLEENE then
        let a1 := st.arena ++ [zero_node, ⟨some x.start, some f, S_LAMBDA, S_LAMBDA⟩]
        some ⟨a1.set x.finish ⟨some x.start, some f, S_LAMBDA, S_LAMBDA⟩, ⟨q, f⟩ :: rest⟩
      else if token = OP_PLUS then
        let a1 := st.arena ++ [zero_node, ⟨some x.start, none, S_LAMBDA, S_LAMBDA⟩]
        some ⟨a1.set x.finish ⟨some x.start, some f, S_LAMBDA, S_LAMBDA⟩, ⟨q, f⟩ :: rest⟩
      else
        let a1 := st.arena ++ [zero_node, ⟨some x.start, some f, S_LAMBDA, S_LAMBDA⟩]
        some ⟨a1.set x.finish ⟨some f, none, S_LAMBDA, S_LAMBDA⟩, ⟨q, f⟩ :: rest⟩
    | [] => none
  else
    let f := st.arena.length
    let q := st.arena.length + 1
    some ⟨st.arena ++ [zero_node, ⟨some f, none, token, S_LAMBDA⟩],
          ⟨q, f⟩ :: st.stack⟩

/-- The token loop of get_nfa. -/
def run_nfa_aux : NfaState → List Char → Option NfaState
  | st, [] => some st
  | st, c :: cs => (nfa_step st c).bind (fun st2 => run_nfa_aux st2 cs)

/-- get_nfa's loop run from the empty state. -/
def run_nfa (p : List Char) : Option NfaState := run_nfa_aux ⟨[], []⟩ p

/-- get_nfa: fails only when the final stack is empty, otherwise returns the
arena together with the entry node of the top fragment. -/
def get_nfa (p : List Char) : Option (List NFANode × Nat) :=
  (run_nfa p).bind fun st =>
    match st.stack with
    | [] => none
    | top :: _ => some (st.arena, top.start)

/-- C2 counterexample: on the postfix stream "aa" the loop ends with two
fragments on the stack, yet get_nfa succeeds instead of failing. -/
theorem c2_two_fragments_still_succeeds :
    (run_nfa "aa".toList).map (fun st => st.stack.length) = some 2 ∧
    (get_nfa "aa".toList).isSome = true := by
  exact ⟨by decide, by decide⟩

theorem nfa_step_stack_ne_nil {st : NfaState} {c : Char} {st2 : NfaState}
    (h : nfa_step st c = some st2) : st2.stack ≠ [] := by
  unfold nfa_step at h
  repeat' split at h
  all_goals try dsimp only [] at h
  all_goals
    first
    | exact Option.noConfusion h
    | (injection h with h2; subst h2; simp)

theorem run_nfa_aux_stack_ne_nil {cs : List Char} (hcs : cs ≠ []) :
    ∀ {st st2 : NfaState}, run_nfa_aux st cs = some st2 → st2.stack ≠ [] := by
  induction cs with
  | nil => exact absurd rfl hcs
  | cons c cs ih =>
    intro st st2 h
    rw [run_nfa_aux] at h
    match hstep : nfa_step st c with
    | none => rw [hstep] at h; exact absurd h (by simp)
    | some st1 =>
      rw [hstep] at h
      replace h : run_nfa_aux st1 cs = some st2 := h
      cases cs with
      | nil =>
        rw [run_nfa_aux] at h
        injection h with h2
        subst h2
        exact nfa_step_stack_ne_nil hstep
      | cons d ds => exact ih (by simp) h

/-- C2 amended: get_nfa succeeds iff the token loop succeeds on a non-empty
postfix; it checks only for an empty final stack, so with two or more
remaining fragments it still succeeds (returning the top fragment). -/
theorem c2_nfa_fails_iff_empty_stack (p : List Char) :
    (get_nfa p).isSome = true ↔ (run_nfa p).isSome = true ∧ p ≠ [] := by
  rw [get_nfa]
  cases hr : run_nfa p with
  | none => simp
  | some st =>
    constructor
    · intro h
      refine ⟨rfl, ?_⟩
      intro hp
      subst hp
      have he : run_nfa ([] : List Char) = some ⟨[], []⟩ := rfl
      rw [he] at hr
      injection hr with h2
      subst h2
      exact absurd h (by decide)
    · rintro ⟨-, h2⟩
      have hne : st.stack ≠ [] := run_nfa_aux_stack_ne_nil h2 hr
      cases hstk : st.stack with
      | nil => exact absurd hstk hne
      | cons top rest =>
        show (match st.stack with
              | [] => none
              | top :: _ => some (st.arena, top.start)).isSome = true
        rw [hstk]
        rfl

/-! ## Epsilon eliminator (add_transitive_closure, remove_lambdas)

The graph's adjacency lists are mutated in place; the embedding threads the
lists through the loops explicitly and turns an out-of-bounds vector access
into a `none` result. Symbols here are alphanumeric characters or NUL, for
which the C++ `char` comparison agrees with `Char`'s order. -/

/-- operator< on Transition: lexicographic on (dest, symbol). -/
def trans_lt (x y : Transition) : Prop :=
  x.dest < y.dest ∨ (x.dest = y.dest ∧ x.symbol < y.symbol)

/-- The reflexive closure of trans_lt, used by the insertion sort below. -/
def trans_le (x y : Transition) : Prop :=
  x.dest < y.dest ∨ (x.dest = y.dest ∧ x.symbol ≤ y.symbol)

instance (x y : Transition) : Decidable (trans_lt x y) := by
  unfold trans_lt; exact inferInstance

instance (x y : Transition) : Decidable (trans_le x y) := by
  unfold trans_le; exact inferInstance

theorem trans_le_total (x y : Transition) : trans_le x y ∨ trans_le y x := by
  unfold trans_le
  rcases Nat.lt_trichotomy x.dest y.dest with h | h | h
  · exact Or.inl (Or.inl h)
  · rcases le_total x.symbol y.symbol with hs | hs
    · exact Or.inl (Or.inr ⟨h, hs⟩)
    · exact Or.inr (Or.inr ⟨h.symm, hs⟩)
  · exact Or.inr (Or.inl h)

theorem trans_le_of_not_le {x y : Transition} (h : ¬ trans_le x y) : trans_le y x :=
  (trans_le_total x y).resolve_left h

theorem trans_lt_of_le_of_ne {x y : Transition} (h : trans_le x y) (hne : x ≠ y) :
    trans_lt x y := by
  rcases h with h | ⟨h1, h2⟩
  · exact Or.inl h
  · refine Or.inr ⟨h1, lt_of_le_of_ne h2 ?_⟩
    intro hs
    exact hne (by cases x; cases y; simp_all)

theorem trans_lt_trans {x y z : Transition} (h1 : trans_lt x y) (h2 : trans_lt y z) :
    trans_lt x z := by
  rcases h1 with h1 | ⟨h1, h1s⟩ <;> rcases h2 with h2 | ⟨h2, h2s⟩
  · exact Or.inl (h1.trans h2)
  · exact Or.inl (h2 ▸ h1)
  · exact Or.inl (h1 ▸ h2)
  · exact Or.inr ⟨h1.trans h2, h1s.trans h2s⟩

theorem trans_lt_irrefl (x : Transition) : ¬ trans_lt x x := by
  rintro (h | ⟨-, h⟩) <;> exact absurd h (lt_irrefl _)

theorem trans_le_trans {x y z : Transition} (h1 : trans_le x y) (h2 : trans_le y z) :
    trans_le x z := by
  rcases h1 with h1 | ⟨h1, h1s⟩ <;> rcases h2 with h2 | ⟨h2, h2s⟩
  · exact Or.inl (h1.trans h2)
  · exact Or.inl (h2 ▸ h1)
  · exact Or.inl (h1 ▸ h2)
  · exact Or.inr ⟨h1.trans h2, h1s.trans h2s⟩

/-- Sorted insertion of one Transition. -/
def ins_trans (t : Transition) : List Transition → List Transition
  | [] => [t]
  | x :: xs => if trans_le t x then t :: x :: xs else x :: ins_trans t xs

/-- std::sort by operator<: since (dest, symbol) is a total order, the sorted
permutation of a list is unique, so insertion sort yields the same result. -/
def sort_trans : List Transition → List Transition
  | [] => []
  | x :: xs => ins_trans x (sort_trans xs)

/-- std::unique: drop an element equal to its predecessor (first kept). -/
def uniq_from (a : Transition) : List Transition → List Transition
  | [] => [a]
  | b :: r => if a = b then uniq_from a r else a :: uniq_from b r

/-- std::unique over a whole list. -/
def uniq_adj : List Transition → List Transition
  | [] => []
  | a :: r => uniq_from a r

/-- The per-list tail of remove_lambdas: drop epsilon transitions
(std::partition + erase keeps exactly the non-epsilon ones, in an order the
subsequent sort makes irrelevant), sort by (dest, symbol), deduplicate. -/
def dedup_sort (l : List Transition) : List Transition :=
  uniq_adj (sort_trans (l.filter (fun t => decide (t.symbol ≠ S_LAMBDA))))

/-- First loop of remove_lambdas, inner part: for every epsilon edge u→v of
the given list, collect every non-epsilon transition of adj[v], in order. -/
def rl_collect (adj : List (List Transition)) : List Transition → Option (List Transition)
  | [] => some []
  | t :: ts =>
    if t.symbol = S_LAMBDA then
      match adj.get? t.dest with
      | none => none
      | some lv =>
        (rl_collect adj ts).map
          (fun acc => lv.filter (fun w => decide (w.symbol ≠ S_LAMBDA)) ++ acc)
    else rl_collect adj ts

/-- First loop of remove_lambdas over states u, u+1, ..., u+k-1 (the collected
transitions are appended to adj[u] before moving on). -/
def rl_phase1_go (u : Nat) : Nat → List (List Transition) → Option (List (List Transition))
  | 0, adj => some adj
  | k + 1, adj =>
    match adj.get? u with
    | none => none
    | some lu =>
      (rl_collect adj lu).bind fun toAdd =>
        rl_phase1_go (u + 1) k (adj.set u (lu ++ toAdd))

/-- remove_lambdas: flatten one epsilon hop everywhere, then strip epsilon
edges, sort and deduplicate every adjacency list. Flags are untouched. -/
def remove_lambdas (g : Graph) : Option Graph :=
  (rl_phase1_go 0 g.adj.length g.adj).map fun adj1 =>
    ⟨adj1.map dedup_sort, g.flags, g.start⟩

/-- Edge loop of add_transitive_closure_helper: visitFn is the recursive
helper call (at the already-decremented fuel). For each epsilon edge to dest:
record it in to_add, propagate dest's FINAL flag to the source of the
closure, and recurse into dest. -/
def atc_go (visitFn : Nat → List Transition → List Flags →
      Option (List Transition × List Flags)) (frm : Nat) :
    List Transition → List Transition → List Flags →
    Option (List Transition × List Flags)
  | [], toAdd, flags => some (toAdd, flags)
  | t :: ts, toAdd, flags =>
    if t.symbol = S_LAMBDA then
      match flags.get? t.dest, flags.get? frm with
      | some fdest, some ffrm =>
        (visitFn t.dest (toAdd ++ [⟨t.dest, t.symbol⟩])
            (flags.set frm ⟨ffrm.visited, ffrm.start, ffrm.final || fdest.final⟩)).bind
          fun p => atc_go visitFn frm ts p.1 p.2
      | _, _ => none
    else atc_go visitFn frm ts toAdd flags

/-- add_transitive_closure_helper: depth-first traversal of epsilon edges
from src, guarded by the VISITED flag. The fuel only bounds the recursion
depth, which the VISITED guard keeps at most one beyond the state count, so
the fuel passed by add_transitive_closure never runs out. -/
def atc_visit (adj : List (List Transition)) : Nat → Nat → Nat →
    List Transition → List Flags → Option (List Transition × List Flags)
  | 0, _, _, _, _ => none
  | fuel + 1, frm, src, toAdd, flags =>
    match flags.get? src with
    | none => none
    | some fsrc =>
      if fsrc.visited then some (toAdd, flags)
      else
        match adj.get? src with
        | none => none
        | some lsrc =>
          atc_go (atc_visit adj fuel frm) frm lsrc toAdd
            (flags.set src ⟨true, fsrc.start, fsrc.final⟩)

/-- Clear the VISITED bit on every state (the loop at the top of each
add_transitive_closure iteration). -/
def clear_visited (flags : List Flags) : List Flags :=
  flags.map fun f => ⟨false, f.start, f.final⟩

/-- Outer loop of add_transitive_closure over sources u, u+1, ..., u+k-1. -/
def atc_outer : Nat → Nat → Graph → Option Graph
  | _, 0, g => some g
  | src, k + 1, g =>
    match atc_visit g.adj (g.adj.length + 1) src src [] (clear_visited g.flags) with
    | none => none
    | some (toAdd, flags1) =>
      match g.adj.get? src with
      | none => none
      | some lsrc =>
        atc_outer (src + 1) k ⟨g.adj.set src (lsrc ++ toAdd), flags1, g.start⟩

/-- add_transitive_closure. -/
def add_transitive_closure (g : Graph) : Option Graph :=
  atc_outer 0 g.adj.length g

/-- The epsilon-elimination pass as main runs it: add_transitive_closure
followed by remove_lambdas on the same graph. -/
def eps_elim (g : Graph) : Option Graph :=
  (add_transitive_closure g).bind remove_lambdas

theorem mem_ins_trans {a t : Transition} {l : List Transition} :
    a ∈ ins_trans t l ↔ a = t ∨ a ∈ l := by
  induction l with
  | nil => simp [ins_trans]
  | cons x xs ih =>
    rw [ins_trans]
    split
    · simp
    · simp only [List.mem_cons, ih]
      tauto

theorem mem_sort_trans {a : Transition} {l : List Transition} :
    a ∈ sort_trans l ↔ a ∈ l := by
  induction l with
  | nil => simp [sort_trans]
  | cons x xs ih =>
    rw [sort_trans]
    simp [mem_ins_trans, ih]

theorem mem_uniq_from {a b : Transition} {l : List Transition}
    (h : a ∈ uniq_from b l) : a = b ∨ a ∈ l := by
  induction l generalizing b with
  | nil =>
    rw [uniq_from] at h
    exact Or.inl (List.mem_singleton.mp h)
  | cons x xs ih =>
    rw [uniq_from] at h
    split at h
    · rcases ih h with h2 | h2
      · exact Or.inl h2
      · exact Or.inr (List.mem_cons_of_mem _ h2)
    · rcases List.mem_cons.mp h with h2 | h2
      · exact Or.inl h2
      · rcases ih h2 with h3 | h3
        · exact Or.inr (h3 ▸ List.mem_cons_self _ _)
        · exact Or.inr (List.mem_cons_of_mem _ h3)

theorem mem_uniq_adj {a : Transition} {l : List Transition} (h : a ∈ uniq_adj l) :
    a ∈ l := by
  cases l with
  | nil => cases h
  | cons b r =>
    rcases mem_uniq_from h with h2 | h2
    · exact h2 ▸ List.mem_cons_self _ _
    · exact List.mem_cons_of_mem _ h2

theorem chain_ins_aux {x t : Transition} {xs : List Transition}
    (hxt : trans_le x t) (h : List.Chain' trans_le (x :: xs)) :
    List.Chain' trans_le (x :: ins_trans t xs) := by
  induction xs generalizing x with
  | nil =>
    rw [ins_trans]
    exact List.chain'_cons.mpr ⟨hxt, List.chain'_singleton t⟩
  | cons y ys ih =>
    rw [ins_trans]
    split
    · rename_i hty
      exact List.chain'_cons.mpr ⟨hxt, List.chain'_cons.mpr ⟨hty, (List.chain'_cons.mp h).2⟩⟩
    · rename_i hty
      have hxy : trans_le x y := (List.chain'_cons.mp h).1
      have hyt : trans_le y t := trans_le_of_not_le hty
      exact List.chain'_cons.mpr ⟨hxy, ih hyt (List.chain'_cons.mp h).2⟩

theorem chain_le_ins {t : Transition} {l : List Transition}
    (h : List.Chain' trans_le l) : List.Chain' trans_le (ins_trans t l) := by
  cases l with
  | nil => simp [ins_trans]
  | cons x xs =>
    rw [ins_trans]
    split
    · rename_i htx
      exact List.chain'_cons.mpr ⟨htx, h⟩
    · rename_i htx
      exact chain_ins_aux (trans_le_of_not_le htx) h

theorem chain_le_sort (l : List Transition) : List.Chain' trans_le (sort_trans l) := by
  induction l with
  | nil => simp [sort_trans]
  | cons x xs ih => exact chain_le_ins ih

theorem uniq_from_head (l : List Transition) (a : Transition) :
    ∃ t, uniq_from a l = a :: t := by
  induction l generalizing a with
  | nil => exact ⟨[], rfl⟩
  | cons b r ih =>
    rw [uniq_from]
    split
    · rename_i hab
      exact ih a
    · exact ⟨uniq_from b r, rfl⟩

theorem chain_lt_uniq_from {a : Transition} {l : List Transition}
    (h : List.Chain' trans_le (a :: l)) :
    List.Chain' trans_lt (uniq_from a l) := by
  induction l generalizing a with
  | nil => simp [uniq_from]
  | cons b r ih =>
    rw [uniq_from]
    split
    · rename_i hab
      subst hab
      exact ih (List.chain'_cons.mp h).2
    · rename_i hab
      have hlt : trans_lt a b :=
        trans_lt_of_le_of_ne (List.chain'_cons.mp h).1 hab
      obtain ⟨t, ht⟩ := uniq_from_head r b
      have hch : List.Chain' trans_lt (uniq_from b r) := ih (List.chain'_cons.mp h).2
      rw [ht] at hch ⊢
      exact List.chain'_cons.mpr ⟨hlt, hch⟩

instance : IsTrans Transition trans_lt := ⟨fun _ _ _ => trans_lt_trans⟩

instance : IsTrans Transition trans_le := ⟨fun _ _ _ => trans_le_trans⟩

theorem nodup_of_chain_lt {l : List Transition} (h : List.Chain' trans_lt l) :
    l.Nodup := by
  have hp : l.Pairwise trans_lt := List.chain'_iff_pairwise.mp h
  refine hp.imp ?_
  intro a b hlt heq
  exact absurd (heq ▸ hlt) (trans_lt_irrefl a)

theorem dedup_sort_no_lambda {l : List Transition} :
    ∀ t ∈ dedup_sort l, t.symbol ≠ S_LAMBDA := by
  intro t ht
  unfold dedup_sort at ht
  have h1 := mem_uniq_adj ht
  have h2 := mem_sort_trans.mp h1
  have h3 := List.mem_filter.mp h2
  simpa using h3.2

theorem dedup_sort_nodup (l : List Transition) : (dedup_sort l).Nodup := by
  unfold dedup_sort
  cases hs : sort_trans (l.filter (fun t => decide (t.symbol ≠ S_LAMBDA))) with
  | nil => simp [uniq_adj]
  | cons a r =>
    have hchain : List.Chain' trans_le (a :: r) := hs ▸ chain_le_sort _
    exact nodup_of_chain_lt (chain_lt_uniq_from hchain)

/-- C6: after remove_lambdas, no transition anywhere carries the epsilon
marker and no adjacency list holds a duplicate (destination, symbol) pair. -/
theorem c6_no_lambda_no_duplicate (g g2 : Graph) (h : remove_lambdas g = some g2) :
    ∀ l ∈ g2.adj, (∀ t ∈ l, t.symbol ≠ S_LAMBDA) ∧ l.Nodup := by
  intro l hl
  unfold remove_lambdas at h
  cases hp : rl_phase1_go 0 g.adj.length g.adj with
  | none => rw [hp] at h; cases h
  | some adj1 =>
    rw [hp] at h
    injection h with h2
    subst h2
    rcases List.mem_map.mp hl with ⟨l0, -, rfl⟩
    exact ⟨dedup_sort_no_lambda, dedup_sort_nodup l0⟩

/-- Concrete graph for the C6 witness: a duplicated edge and an epsilon edge. -/
def gC6 : Graph :=
  ⟨[[⟨1, 'a'⟩, ⟨1, 'a'⟩, ⟨1, S_LAMBDA⟩], []],
   [⟨false, true, false⟩, ⟨false, false, true⟩], 0⟩

/-- What remove_lambdas produces on gC6. -/
def gC6r : Graph :=
  ⟨[[⟨1, 'a'⟩], []], [⟨false, true, false⟩, ⟨false, false, true⟩], 0⟩

/-- C6 witness: the post-condition instantiated on a concrete graph. -/
theorem c6_no_lambda_no_duplicate_witness :
    remove_lambdas gC6 = some gC6r ∧
    ∀ l ∈ gC6r.adj, (∀ t ∈ l, t.symbol ≠ S_LAMBDA) ∧ l.Nodup :=
  ⟨by decide, c6_no_lambda_no_duplicate gC6 gC6r (by decide)⟩

/-- A two-state graph whose last state has an outgoing epsilon edge. -/
def gC9 : Graph :=
  ⟨[[], [⟨0, S_LAMBDA⟩]], [⟨false, true, false⟩, ⟨false, false, false⟩], 0⟩

/-- eps_elim gC9: state 0 keeps the VISITED mark left by the closure pass
run from the last source (state 1 reaches state 0 by epsilon). -/
def gC9a : Graph :=
  ⟨[[], []], [⟨true, true, false⟩, ⟨true, false, false⟩], 0⟩

/-- eps_elim gC9a: the second run finds no epsilon edge from state 1, so
state 0's VISITED mark is cleared and not re-set. -/
def gC9b : Graph :=
  ⟨[[], []], [⟨false, true, false⟩, ⟨true, false, false⟩], 0⟩

/-- C9 counterexample: a second application of the epsilon-elimination passes
does change the graph, because the first application leaves VISITED marks
from its last closure source and the second clears them differently. -/
theorem c9_second_application_changes_flags :
    eps_elim gC9 = some gC9a ∧ eps_elim gC9a = some gC9b ∧ gC9b ≠ gC9a :=
  ⟨by decide, by decide, by decide⟩

/-- The canonical shape remove_lambdas leaves every adjacency list in:
epsilon-free and strictly sorted (hence duplicate-free). -/
def canon_list (l : List Transition) : Prop :=
  (∀ t ∈ l, t.symbol ≠ S_LAMBDA) ∧ List.Chain' trans_lt l

theorem dedup_sort_chain_lt (l : List Transition) :
    List.Chain' trans_lt (dedup_sort l) := by
  unfold dedup_sort
  cases hs : sort_trans (l.filter (fun t => decide (t.symbol ≠ S_LAMBDA))) with
  | nil => simp [uniq_adj]
  | cons a r =>
    have hchain : List.Chain' trans_le (a :: r) := hs ▸ chain_le_sort _
    exact chain_lt_uniq_from hchain

theorem dedup_sort_canon (l : List Transition) : canon_list (dedup_sort l) :=
  ⟨dedup_sort_no_lambda, dedup_sort_chain_lt l⟩

theorem sort_id_of_chain_le {l : List Transition} (h : List.Chain' trans_le l) :
    sort_trans l = l := by
  induction l with
  | nil => rfl
  | cons x xs ih =>
    rw [sort_trans, ih h.tail]
    cases xs with
    | nil => rfl
    | cons y ys =>
      rw [ins_trans, if_pos (List.chain'_cons.mp h).1]

theorem uniq_from_id_of_chain_lt {a : Transition} {l : List Transition}
    (h : List.Chain' trans_lt (a :: l)) : uniq_from a l = a :: l := by
  induction l generalizing a with
  | nil => rfl
  | cons b r ih =>
    have hab : trans_lt a b := (List.chain'_cons.mp h).1
    have hne : a ≠ b := fun he => absurd (he ▸ hab) (trans_lt_irrefl _)
    rw [uniq_from, if_neg hne, ih (List.chain'_cons.mp h).2]

theorem chain_le_of_chain_lt {l : List Transition} (h : List.Chain' trans_lt l) :
    List.Chain' trans_le l := by
  refine List.Chain'.imp ?_ h
  intro a b hab
  rcases hab with hab | ⟨h1, h2⟩
  · exact Or.inl hab
  · exact Or.inr ⟨h1, le_of_lt h2⟩

theorem dedup_sort_id_of_canon {l : List Transition} (h : canon_list l) :
    dedup_sort l = l := by
  obtain ⟨hnl, hlt⟩ := h
  unfold dedup_sort
  rw [List.filter_eq_self.mpr (fun a ha => by simpa using hnl a ha)]
  rw [sort_id_of_chain_le (chain_le_of_chain_lt hlt)]
  cases l with
  | nil => rfl
  | cons a r => exact uniq_from_id_of_chain_lt hlt

theorem lset_get_self {α : Type} {l : List α} {i : Nat} {a : α}
    (h : l.get? i = some a) : l.set i a = l := by
  induction l generalizing i with
  | nil => cases h
  | cons x xs ih =>
    cases i with
    | zero =>
      injection h with h2
      rw [h2]
      rfl
    | succ n =>
      have := ih (i := n) h
      simp [List.set, this]

theorem rl_collect_no_lambda {adj : List (List Transition)} {l : List Transition}
    (h : ∀ t ∈ l, t.symbol ≠ S_LAMBDA) : rl_collect adj l = some [] := by
  induction l with
  | nil => rfl
  | cons t ts ih =>
    rw [rl_collect, if_neg (h t (List.mem_cons_self _ _))]
    exact ih (fun u hu => h u (List.mem_cons_of_mem _ hu))

theorem rl_phase1_id {adj : List (List Transition)}
    (h : ∀ l ∈ adj, ∀ t ∈ l, t.symbol ≠ S_LAMBDA) :
    ∀ k u, u + k ≤ adj.length → rl_phase1_go u k adj = some adj := by
  intro k
  induction k with
  | zero => intro u _; rfl
  | succ k ih =>
    intro u hu
    have hlt : u < adj.length := by omega
    have hget : adj.get? u = some (adj.get ⟨u, hlt⟩) := List.get?_eq_get hlt
    have hmem : adj.get ⟨u, hlt⟩ ∈ adj := List.get_mem adj u hlt
    have hstep : rl_phase1_go u (k + 1) adj =
        (rl_collect adj (adj.get ⟨u, hlt⟩)).bind
          (fun toAdd => rl_phase1_go (u + 1) k (adj.set u (adj.get ⟨u, hlt⟩ ++ toAdd))) := by
      rw [rl_phase1_go, hget]
    rw [hstep, rl_collect_no_lambda (h _ hmem)]
    simp only [Option.some_bind, List.append_nil]
    rw [lset_get_self hget]
    exact ih (u + 1) (by omega)

theorem atc_go_no_lambda {visitFn : Nat → List Transition → List Flags →
      Option (List Transition × List Flags)} {frm : Nat}
    {l toAdd : List Transition} {flags : List Flags}
    (h : ∀ t ∈ l, t.symbol ≠ S_LAMBDA) :
    atc_go visitFn frm l toAdd flags = some (toAdd, flags) := by
  induction l with
  | nil => rfl
  | cons t ts ih =>
    rw [atc_go, if_neg (h t (List.mem_cons_self _ _))]
    exact ih (fun u hu => h u (List.mem_cons_of_mem _ hu))

/-- The effect on the flag vector of marking one state VISITED (keeping its
other bits), as add_transitive_closure_helper does on an unvisited source. -/
def set_visited (flags : List Flags) (j : Nat) : List Flags :=
  match flags.get? j with
  | none => flags
  | some x => flags.set j ⟨true, x.start, x.final⟩

theorem atc_visit_unvisited {adj : List (List Transition)} {fuel frm src : Nat}
    {toAdd : List Transition} {flags : List Flags} {fsrc : Flags}
    {lsrc : List Transition}
    (hf : flags.get? src = some fsrc) (hv : fsrc.visited = false)
    (ha : adj.get? src = some lsrc) (hnl : ∀ t ∈ lsrc, t.symbol ≠ S_LAMBDA) :
    atc_visit adj (fuel + 1) frm src toAdd flags =
      some (toAdd, flags.set src ⟨true, fsrc.start, fsrc.final⟩) := by
  have h1 : atc_visit adj (fuel + 1) frm src toAdd flags =
      atc_go (atc_visit adj fuel frm) frm lsrc toAdd
        (flags.set src ⟨true, fsrc.start, fsrc.final⟩) := by
    rw [atc_visit, hf, ha]
    simp [hv]
  rw [h1, atc_go_no_lambda hnl]

theorem atc_outer_no_lambda {adjG : List (List Transition)} {s : Nat}
    (hnl : ∀ l ∈ adjG, ∀ t ∈ l, t.symbol ≠ S_LAMBDA) :
    ∀ (k src : Nat) (flags : List Flags), 1 ≤ k → src + k = adjG.length →
    adjG.length ≤ flags.length →
    atc_outer src k ⟨adjG, flags, s⟩ =
      some ⟨adjG, set_visited (clear_visited flags) (adjG.length - 1), s⟩ := by
  intro k
  induction k with
  | zero => intro src flags h1; omega
  | succ k ih =>
    intro src flags h1 h2 h3
    have hsrc : src < adjG.length := by omega
    obtain ⟨fy, hf⟩ : ∃ x, flags.get? src = some x := by
      cases hx : flags.get? src with
      | none =>
        have := List.get?_eq_none.mp hx
        omega
      | some x => exact ⟨x, rfl⟩
    have hfc : (clear_visited flags).get? src = some ⟨false, fy.start, fy.final⟩ := by
      unfold clear_visited
      rw [List.get?_map, hf]
      rfl
    have hac : adjG.get? src = some (adjG.get ⟨src, hsrc⟩) := List.get?_eq_get hsrc
    have hvisit := @atc_visit_unvisited adjG adjG.length src src []
      (clear_visited flags) ⟨false, fy.start, fy.final⟩ (adjG.get ⟨src, hsrc⟩)
      hfc rfl hac (hnl _ (List.get_mem _ _ _))
    have hsetv : set_visited (clear_visited flags) src =
        (clear_visited flags).set src ⟨true, fy.start, fy.final⟩ := by
      unfold set_visited
      rw [hfc]
    have hstep : atc_outer src (k + 1) ⟨adjG, flags, s⟩ =
        atc_outer (src + 1) k ⟨adjG, set_visited (clear_visited flags) src, s⟩ := by
      rw [atc_outer]
      dsimp only
      rw [hvisit, hac]
      dsimp only
      rw [List.append_nil, lset_get_self hac, hsetv]
    rw [hstep]
    rcases Nat.eq_zero_or_pos k with hk0 | hk1
    · subst hk0
      rw [atc_outer]
      have hse : src = adjG.length - 1 := by omega
      rw [hse]
    · have hlen2 : adjG.length ≤ (set_visited (clear_visited flags) src).length := by
        rw [hsetv, List.length_set]
        unfold clear_visited
        rw [List.length_map]
        exact h3
      rw [ih (src + 1) _ hk1 (by omega) hlen2]
      have hclr : clear_visited (set_visited (clear_visited flags) src) =
          clear_visited flags := by
        rw [hsetv]
        unfold clear_visited
        rw [List.map_set, List.map_map]
        have hmm : (fun f => (⟨false, Flags.start f, Flags.final f⟩ : Flags)) ∘
            (fun f => (⟨false, Flags.start f, Flags.final f⟩ : Flags)) =
            (fun f => (⟨false, Flags.start f, Flags.final f⟩ : Flags)) := by
          funext f
          rfl
        rw [hmm]
        apply lset_get_self
        rw [List.get?_map, hf]
        rfl
      rw [hclr]

/-- Projection to the persistent (START, FINAL) bits of a flag entry. -/
def sf_proj (f : Flags) : Bool × Bool := (f.start, f.final)

theorem sf_clear (flags : List Flags) :
    (clear_visited flags).map sf_proj = flags.map sf_proj := by
  unfold clear_visited
  rw [List.map_map]
  rfl

theorem sf_set_visited (flags : List Flags) (j : Nat) :
    (set_visited flags j).map sf_proj = flags.map sf_proj := by
  unfold set_visited
  cases hj : flags.get? j with
  | none => rfl
  | some x =>
    rw [List.map_set]
    apply lset_get_self
    rw [List.get?_map, hj]
    rfl

theorem atc_visit_src_lt {adj : List (List Transition)} {fuel frm src : Nat}
    {toAdd : List Transition} {flags : List Flags} {p : List Transition × List Flags}
    (h : atc_visit adj (fuel + 1) frm src toAdd flags = some p) :
    src < flags.length := by
  rw [atc_visit] at h
  cases hf : flags.get? src with
  | none =>
    rw [hf] at h
    cases h
  | some fsrc =>
    by_cases hlt : src < flags.length
    · exact hlt
    · rw [List.get?_eq_none.mpr (by omega)] at hf
      cases hf

theorem atc_go_flags_len {visitFn : Nat → List Transition → List Flags →
      Option (List Transition × List Flags)}
    (hv : ∀ d ta fl p, visitFn d ta fl = some p → p.2.length = fl.length)
    (frm : Nat) :
    ∀ (l toAdd : List Transition) (flags : List Flags)
      (p : List Transition × List Flags),
      atc_go visitFn frm l toAdd flags = some p → p.2.length = flags.length := by
  intro l
  induction l with
  | nil =>
    intro toAdd flags p h
    injection h with h2
    rw [← h2]
  | cons t ts ih =>
    intro toAdd flags p h
    rw [atc_go] at h
    split at h
    · split at h
      · rename_i fdest ffrm hfd hff
        cases hv1 : visitFn t.dest (toAdd ++ [⟨t.dest, t.symbol⟩])
            (flags.set frm ⟨ffrm.visited, ffrm.start, ffrm.final || fdest.final⟩) with
        | none => rw [hv1] at h; cases h
        | some p1 =>
          rw [hv1] at h
          replace h : atc_go visitFn frm ts p1.1 p1.2 = some p := h
          have e1 := hv _ _ _ _ hv1
          have e2 := ih _ _ _ h
          rw [e2, e1, List.length_set]
      · cases h
    · exact ih _ _ _ h

theorem atc_visit_flags_len (adj : List (List Transition)) :
    ∀ (fuel frm src : Nat) (toAdd : List Transition) (flags : List Flags)
      (p : List Transition × List Flags),
      atc_visit adj fuel frm src toAdd flags = some p → p.2.length = flags.length := by
  intro fuel
  induction fuel with
  | zero => intro _ _ _ _ _ h; cases h
  | succ fuel ih =>
    intro frm src toAdd flags p h
    rw [atc_visit] at h
    split at h
    · cases h
    · rename_i fsrc hf
      split at h
      · injection h with h2
        rw [← h2]
      · split at h
        · cases h
        · rename_i lsrc ha
          have := atc_go_flags_len (fun d ta fl q hq => ih frm d ta fl q hq)
            frm lsrc toAdd _ p h
          rw [this, List.length_set]

theorem atc_outer_props : ∀ (k src : Nat) (g g' : Graph),
    atc_outer src k g = some g' →
    g'.adj.length = g.adj.length ∧ g'.flags.length = g.flags.length ∧
    g'.start = g.start ∧ ∀ j, src ≤ j → j < src + k → j < g.flags.length := by
  intro k
  induction k with
  | zero =>
    intro src g g' h
    injection h with h2
    subst h2
    exact ⟨rfl, rfl, rfl, fun j h1 h2 => by omega⟩
  | succ k ih =>
    intro src g g' h
    rw [atc_outer] at h
    cases hv : atc_visit g.adj (g.adj.length + 1) src src [] (clear_visited g.flags) with
    | none => rw [hv] at h; cases h
    | some p =>
      rw [hv] at h
      obtain ⟨toAdd, flags1⟩ := p
      cases ha : g.adj.get? src with
      | none => rw [ha] at h; cases h
      | some lsrc =>
        rw [ha] at h
        replace h : atc_outer (src + 1) k
            ⟨g.adj.set src (lsrc ++ toAdd), flags1, g.start⟩ = some g' := h
        obtain ⟨e1, e2, e3, e4⟩ := ih (src + 1) _ g' h
        have hsrcle : src < g.flags.length := by
          have h5 := @atc_visit_src_lt g.adj g.adj.length src src []
            (clear_visited g.flags) (toAdd, flags1) hv
          unfold clear_visited at h5
          rw [List.length_map] at h5
          exact h5
        have hflen : flags1.length = g.flags.length := by
          have h6 := atc_visit_flags_len g.adj (g.adj.length + 1) src src []
            (clear_visited g.flags) (toAdd, flags1) hv
          rw [h6]
          unfold clear_visited
          rw [List.length_map]
        refine ⟨?_, ?_, ?_, ?_⟩
        · rw [e1]
          exact List.length_set g.adj src (lsrc ++ toAdd)
        · rw [e2]
          exact hflen
        · exact e3
        · intro j hj1 hj2
          by_cases hj : j = src
          · subst hj; exact hsrcle
          · have h7 := e4 j (by omega) (by omega)
            rw [hflen] at h7
            exact h7

theorem rl_phase1_go_length : ∀ (k u : Nat) (adj adj1 : List (List Transition)),
    rl_phase1_go u k adj = some adj1 → adj1.length = adj.length := by
  intro k
  induction k with
  | zero =>
    intro u adj adj1 h
    injection h with h2
    rw [← h2]
  | succ k ih =>
    intro u adj adj1 h
    rw [rl_phase1_go] at h
    cases hg : adj.get? u with
    | none => rw [hg] at h; cases h
    | some lu =>
      rw [hg] at h
      replace h : (rl_collect adj lu).bind
          (fun toAdd => rl_phase1_go (u + 1) k (adj.set u (lu ++ toAdd))) =
          some adj1 := h
      cases hc : rl_collect adj lu with
      | none => rw [hc] at h; cases h
      | some toAdd =>
        rw [hc] at h
        replace h : rl_phase1_go (u + 1) k (adj.set u (lu ++ toAdd)) = some adj1 := h
        rw [ih _ _ _ h, List.length_set]

theorem remove_lambdas_spec {g g1 : Graph} (h : remove_lambdas g = some g1) :
    ∃ adj1, rl_phase1_go 0 g.adj.length g.adj = some adj1 ∧
      g1 = ⟨adj1.map dedup_sort, g.flags, g.start⟩ := by
  unfold remove_lambdas at h
  cases hp : rl_phase1_go 0 g.adj.length g.adj with
  | none => rw [hp] at h; cases h
  | some adj1 =>
    rw [hp] at h
    injection h with h2
    exact ⟨adj1, rfl, h2.symm⟩

theorem map_id_of_canon {adj : List (List Transition)}
    (h : ∀ l ∈ adj, canon_list l) : adj.map dedup_sort = adj := by
  have h1 : adj.map dedup_sort = adj.map id :=
    List.map_congr_left (fun l hl => dedup_sort_id_of_canon (h l hl))
  rw [h1, List.map_id]

/-- C9 amended: a second application of the closure and flattening passes to
a graph already produced by one application leaves the adjacency lists, the
start id and the START/FINAL flags unchanged; only the transient VISITED
marks (left behind by the last closure source of each run) may differ. -/
theorem c9_elim_idempotent_mod_visited (g g1 : Graph) (h : eps_elim g = some g1) :
    ∃ g2, eps_elim g1 = some g2 ∧ g2.adj = g1.adj ∧ g2.start = g1.start ∧
      g2.flags.map sf_proj = g1.flags.map sf_proj := by
  unfold eps_elim at h
  cases hm : add_transitive_closure g with
  | none => rw [hm] at h; cases h
  | some gm =>
    rw [hm] at h
    replace h : remove_lambdas gm = some g1 := h
    obtain ⟨adj1, hp, hg1⟩ := remove_lambdas_spec h
    have hcanon : ∀ l ∈ g1.adj, canon_list l := by
      intro l hl
      rw [hg1] at hl
      rcases List.mem_map.mp hl with ⟨l0, -, rfl⟩
      exact dedup_sort_canon l0
    have hnl : ∀ l ∈ g1.adj, ∀ t ∈ l, t.symbol ≠ S_LAMBDA :=
      fun l hl => (hcanon l hl).1
    rcases Nat.eq_zero_or_pos g1.adj.length with hz | hpos
    · have hadjnil : g1.adj = [] := List.length_eq_zero.mp hz
      refine ⟨g1, ?_, rfl, rfl, rfl⟩
      have h1 : add_transitive_closure g1 = some g1 := by
        unfold add_transitive_closure
        rw [hadjnil]
        rfl
      have h2 : remove_lambdas g1 = some g1 := by
        unfold remove_lambdas
        rw [hadjnil]
        show some (⟨([] : List (List Transition)).map dedup_sort,
          g1.flags, g1.start⟩ : Graph) = some g1
        rw [show ([] : List (List Transition)).map dedup_sort = [] from rfl,
          ← hadjnil]
      unfold eps_elim
      rw [h1]
      exact h2
    · obtain ⟨ea, ef, es, ej⟩ := atc_outer_props g.adj.length 0 g gm hm
      have hlen1 : g1.adj.length = gm.adj.length := by
        rw [hg1]
        show (adj1.map dedup_sort).length = gm.adj.length
        rw [List.length_map]
        exact rl_phase1_go_length _ _ _ _ hp
      have hfl1 : g1.flags = gm.flags := by rw [hg1]
      have hflen : g1.adj.length ≤ g1.flags.length := by
        have h8 : g.adj.length - 1 < g.flags.length := by
          apply ej (g.adj.length - 1) (by omega)
          omega
        rw [hfl1, ef, hlen1, ea]
        omega
      have hatc : add_transitive_closure g1 =
          some ⟨g1.adj, set_visited (clear_visited g1.flags) (g1.adj.length - 1),
            g1.start⟩ := by
        unfold add_transitive_closure
        exact atc_outer_no_lambda hnl g1.adj.length 0 g1.flags hpos (by omega) hflen
      have hrm : remove_lambdas
          (⟨g1.adj, set_visited (clear_visited g1.flags) (g1.adj.length - 1),
            g1.start⟩ : Graph) =
          some ⟨g1.adj, set_visited (clear_visited g1.flags) (g1.adj.length - 1),
            g1.start⟩ := by
        unfold remove_lambdas
        show (rl_phase1_go 0 g1.adj.length g1.adj).map _ = _
        rw [rl_phase1_id hnl g1.adj.length 0 (by omega)]
        show some (⟨g1.adj.map dedup_sort, _, _⟩ : Graph) = _
        rw [map_id_of_canon hcanon]
      refine ⟨⟨g1.adj, set_visited (clear_visited g1.flags) (g1.adj.length - 1),
        g1.start⟩, ?_, rfl, rfl, ?_⟩
      · unfold eps_elim
        rw [hatc]
        exact hrm
      · show (set_visited (clear_visited g1.flags) (g1.adj.length - 1)).map sf_proj
          = g1.flags.map sf_proj
        rw [sf_set_visited, sf_clear]

/-- C9 witness: the amended idempotence at the concrete graph gC9. -/
theorem c9_elim_idempotent_mod_visited_witness :
    ∃ g2, eps_elim gC9a = some g2 ∧ g2.adj = gC9a.adj ∧ g2.start = gC9a.start ∧
      g2.flags.map sf_proj = gC9a.flags.map sf_proj :=
  c9_elim_idempotent_mod_visited gC9 gC9a (by decide)

/-! ## Subset constructor (to_dfa_graph)

std::unordered_set<usize> keys compare by set equality and hash
order-independently, so a subset of NFA states is embedded by its canonical
sorted duplicate-free list; inserting an element is sorted insertion. The
queue, the subset→id map (insertion-ordered association list), the edge list
and the set of final ids are threaded explicitly. -/

/-- Insertion into the canonical (sorted, duplicate-free) encoding of a set
of state indices. -/
def ins_nat (x : Nat) : List Nat → List Nat
  | [] => [x]
  | y :: ys =>
    if x = y then y :: ys
    else if x < y then x :: y :: ys
    else y :: ins_nat x ys

/-- Inner loop over adj[src]: insert every destination reachable on the
target symbol into the destination subset. -/
def insert_dests : List Transition → Char → List Nat → List Nat
  | [], _, acc => acc
  | t :: ts, c, acc =>
    insert_dests ts c (if t.symbol = c then ins_nat t.dest acc else acc)

/-- Union of the symbol-labeled destinations over every NFA state of the
source subset (the two nested loops of the symbol pass). -/
def collect_dests (nfa : Graph) : List Nat → Char → Option (List Nat)
  | [], _ => some []
  | s :: rest, c =>
    match nfa.adj.get? s with
    | none => none
    | some ls => (collect_dests nfa rest c).map (fun acc => insert_dests ls c acc)

/-- The finality check of a dequeued subset: stop at the first FINAL member
(the C++ loop breaks there, reading no further flags). -/
def subset_has_final (nfa : Graph) : List Nat → Option Bool
  | [] => some false
  | s :: rest =>
    match nfa.flags.get? s with
    | none => none
    | some f => if f.final then some true else subset_has_final nfa rest

/-- The hardcoded symbol loop bounds of to_dfa_graph: the for loop runs
target_symbol from the character a to the character z inclusive, whatever
alphabet was configured. -/
def lowercase_syms : List Char := (List.range 26).map (fun i => Char.ofNat (97 + i))

/-- State of to_dfa_graph's worklist loop. -/
structure DfaState where
  queue : List (List Nat)
  ids : List (List Nat × Nat)
  edges : List Edge
  finals : List Nat
  nextId : Nat
deriving Repr, DecidableEq

/-- Lookup in the subset→id map (set-equal keys coincide, since keys are
canonical encodings). -/
def lookup_id : List (List Nat × Nat) → List Nat → Option Nat
  | [], _ => none
  | p :: rest, s => if p.1 = s then some p.2 else lookup_id rest s

/-- One symbol of the symbol pass for a dequeued subset: build the
destination subset; skip it if empty; otherwise look it up, assigning the
next id and enqueueing it when unseen, and record the edge. -/
def dfa_symbol_step (nfa : Graph) (srcId : Nat) (srcSubset : List Nat) (c : Char)
    (st : DfaState) : Option DfaState :=
  match collect_dests nfa srcSubset c with
  | none => none
  | some dest =>
    if dest = [] then some st
    else
      match lookup_id st.ids dest with
      | some destId => some { st with edges := st.edges ++ [⟨srcId, destId, c⟩] }
      | none =>
        some { st with
              ids := st.ids ++ [(dest, st.nextId)],
              queue := st.queue ++ [dest],
              edges := st.edges ++ [⟨srcId, st.nextId, c⟩],
              nextId := st.nextId + 1 }

/-- The symbol pass over a list of symbols. -/
def dfa_symbols (nfa : Graph) (srcId : Nat) (srcSubset : List Nat) :
    List Char → DfaState → Option DfaState
  | [], st => some st
  | c :: cs, st =>
    (dfa_symbol_step nfa srcId srcSubset c st).bind
      (fun st2 => dfa_symbols nfa srcId srcSubset cs st2)

/-- The worklist loop. The fuel only bounds the number of dequeues; each
dequeue is of a distinct canonical subset that entered the map, so
2 ^ (state count) dequeues can never be exceeded and the fuel passed by
to_dfa_graph never runs out (proved for well-formed inputs below). -/
def dfa_loop (nfa : Graph) : Nat → DfaState → Option DfaState
  | fuel, st =>
    match st.queue with
    | [] => some st
    | s :: rest =>
      match fuel with
      | 0 => none
      | fuel + 1 =>
        match lookup_id st.ids s with
        | none => none
        | some srcId =>
          match subset_has_final nfa s with
          | none => none
          | some isF =>
            (dfa_symbols nfa srcId s lowercase_syms
                { st with queue := rest,
                          finals := if isF then ins_nat srcId st.finals else st.finals }).bind
              (fun st2 => dfa_loop nfa fuel st2)

/-- The worklist run of to_dfa_graph, from the singleton subset of the NFA
start state with id 1. -/
def dfa_run (nfa : Graph) : Option DfaState :=
  dfa_loop nfa (2 ^ nfa.adj.length) ⟨[[nfa.start]], [([nfa.start], 1)], [], [], 2⟩

/-- dfa.adj[i].push_back(t) with its bounds check made explicit. -/
def push_edge (adj : List (List Transition)) (i : Nat) (t : Transition) :
    Option (List (List Transition)) :=
  match adj.get? i with
  | none => none
  | some l => some (adj.set i (l ++ [t]))

/-- Replay the recorded edges onto the final adjacency vector (ids shift
down by one; id 0 would wrap below zero in the C++ usize arithmetic, which
nothing can produce, and is treated as the out-of-range access it would be). -/
def build_edges : List (List Transition) → List Edge → Option (List (List Transition))
  | adj, [] => some adj
  | adj, e :: es =>
    if e.src = 0 then none
    else
      (push_edge adj (e.src - 1) ⟨e.dest - 1, e.symbol⟩).bind
        (fun adj2 => build_edges adj2 es)

/-- Set the FINAL flag of every recorded final id (order-independent). -/
def mark_finals : List Flags → List Nat → Option (List Flags)
  | flags, [] => some flags
  | flags, s :: rest =>
    if s = 0 then none
    else
      match flags.get? (s - 1) with
      | none => none
      | some f => mark_finals (flags.set (s - 1) ⟨f.visited, f.start, true⟩) rest

/-- to_dfa_graph: worklist run, then materialize the DFA graph; state count
is next_id - 1, state 0 (the start subset's id 1, shifted) is marked START. -/
def to_dfa_graph (nfa : Graph) : Option Graph :=
  (dfa_run nfa).bind fun st =>
    (build_edges (List.replicate (st.nextId - 1) []) st.edges).bind fun adj =>
      (mark_finals (List.replicate (st.nextId - 1) ⟨false, false, false⟩)
          st.finals).bind fun flags =>
        match flags.get? 0 with
        | none => none
        | some f0 => some ⟨adj, flags.set 0 ⟨f0.visited, true, f0.final⟩, 0⟩

/-- The epsilon-free NFA of the regex "A" over the configured alphabet {A}:
state 0 steps to the final state 1 on the symbol A. -/
def nfaUpperA : Graph :=
  ⟨[[⟨1, 'A'⟩], []], [⟨false, true, false⟩, ⟨false, false, true⟩], 0⟩

/-- C1: the symbol loop of to_dfa_graph is hardcoded to the characters a..z,
so over the configured alphabet {A} the transition on A is never examined:
the resulting DFA has a single state and no edge at all, and it is not even
final (the FINAL subset {1} is never reached). The claim's promise that every
configured alphabet symbol is iterated fails; the code's own -a and -s
options advertise such alphabets. -/
theorem c1_uppercase_symbol_skipped :
    to_dfa_graph nfaUpperA = some ⟨[[]], [⟨false, true, false⟩], 0⟩ ∧
    'A' ∉ lowercase_syms := by
  exact ⟨by decide, by decide⟩

/-- C4 counterexample: on the empty NFA graph (zero states) the subset
constructor reads nfa.flags[start] out of bounds (an absent result in the
embedding) instead of producing an empty DFA. -/
theorem c4_empty_nfa_fails :
    to_dfa_graph ⟨[], [], 0⟩ = none := by decide

theorem mem_ins_nat {x a : Nat} {l : List Nat} :
    a ∈ ins_nat x l ↔ a = x ∨ a ∈ l := by
  induction l with
  | nil => simp [ins_nat]
  | cons y ys ih =>
    rw [ins_nat]
    split
    · rename_i hxy
      subst hxy
      simp only [List.mem_cons]
      tauto
    · split
      · simp only [List.mem_cons]
      · simp only [List.mem_cons, ih]
        tauto

theorem pairwise_ins_nat {x : Nat} {l : List Nat}
    (h : l.Pairwise (fun a b => a < b)) :
    (ins_nat x l).Pairwise (fun a b => a < b) := by
  induction l with
  | nil => simp [ins_nat]
  | cons y ys ih =>
    rw [ins_nat]
    rcases List.pairwise_cons.mp h with ⟨hy, hys⟩
    split
    · exact h
    · split
      · rename_i hne hlt
        refine List.pairwise_cons.mpr ⟨?_, h⟩
        intro w hw
        rcases List.mem_cons.mp hw with rfl | hw
        · exact hlt
        · exact hlt.trans (hy w hw)
      · rename_i hne hnlt
        have hyx : y < x := by omega
        refine List.pairwise_cons.mpr ⟨?_, ih hys⟩
        intro w hw
        rcases mem_ins_nat.mp hw with rfl | hw
        · exact hyx
        · exact hy w hw

theorem ins_nat_ne_nil (x : Nat) (l : List Nat) : ins_nat x l ≠ [] := by
  cases l with
  | nil => simp [ins_nat]
  | cons y ys =>
    rw [ins_nat]
    split
    · simp
    · split <;> simp

theorem mem_insert_dests : ∀ {l : List Transition} {c : Char} {acc : List Nat}
    {a : Nat}, a ∈ insert_dests l c acc ↔
      (∃ t ∈ l, t.symbol = c ∧ t.dest = a) ∨ a ∈ acc := by
  intro l
  induction l with
  | nil => simp [insert_dests]
  | cons t ts ih =>
    intro c acc a
    rw [insert_dests, ih]
    split
    · rename_i hs
      simp only [mem_ins_nat, List.mem_cons]
      constructor
      · rintro (⟨u, hu, h1, h2⟩ | rfl | h)
        · exact Or.inl ⟨u, Or.inr hu, h1, h2⟩
        · exact Or.inl ⟨t, Or.inl rfl, hs, rfl⟩
        · exact Or.inr h
      · rintro (⟨u, hu | hu, h1, h2⟩ | h)
        · subst hu
          exact Or.inr (Or.inl h2.symm)
        · exact Or.inl ⟨u, hu, h1, h2⟩
        · exact Or.inr (Or.inr h)
    · rename_i hs
      simp only [List.mem_cons]
      constructor
      · rintro (⟨u, hu, h1, h2⟩ | h)
        · exact Or.inl ⟨u, Or.inr hu, h1, h2⟩
        · exact Or.inr h
      · rintro (⟨u, hu | hu, h1, h2⟩ | h)
        · subst hu
          exact absurd h1 hs
        · exact Or.inl ⟨u, hu, h1, h2⟩
        · exact Or.inr h

theorem pairwise_insert_dests : ∀ {l : List Transition} {c : Char} {acc : List Nat},
    acc.Pairwise (fun a b => a < b) →
    (insert_dests l c acc).Pairwise (fun a b => a < b) := by
  intro l
  induction l with
  | nil => intro c acc h; exact h
  | cons t ts ih =>
    intro c acc h
    rw [insert_dests]
    split
    · exact ih (pairwise_ins_nat h)
    · exact ih h

theorem collect_dests_ok {nfa : Graph}
    (hb : ∀ l ∈ nfa.adj, ∀ t ∈ l, t.dest < nfa.adj.length) :
    ∀ (S : List Nat) (c : Char), (∀ x ∈ S, x < nfa.adj.length) →
    ∃ D, collect_dests nfa S c = some D ∧ D.Pairwise (fun a b => a < b) ∧
      ∀ x ∈ D, x < nfa.adj.length := by
  intro S
  induction S with
  | nil => exact fun c _ => ⟨[], rfl, List.Pairwise.nil, by simp⟩
  | cons s rest ih =>
    intro c hS
    have hs : s < nfa.adj.length := hS s (List.mem_cons_self _ _)
    have hls : nfa.adj.get? s = some (nfa.adj.get ⟨s, hs⟩) := List.get?_eq_get hs
    obtain ⟨D, hD, hDp, hDb⟩ := ih c (fun x hx => hS x (List.mem_cons_of_mem _ hx))
    refine ⟨insert_dests (nfa.adj.get ⟨s, hs⟩) c D, ?_, pairwise_insert_dests hDp, ?_⟩
    · rw [collect_dests, hls, hD]
      rfl
    · intro x hx
      rcases mem_insert_dests.mp hx with ⟨t, ht, -, rfl⟩ | hx
      · exact hb _ (List.get_mem _ _ _) t ht
      · exact hDb x hx

theorem subset_has_final_ok {nfa : Graph}
    (hf : nfa.adj.length ≤ nfa.flags.length) :
    ∀ S : List Nat, (∀ x ∈ S, x < nfa.adj.length) →
    ∃ b, subset_has_final nfa S = some b := by
  intro S
  induction S with
  | nil => exact fun _ => ⟨false, rfl⟩
  | cons s rest ih =>
    intro hS
    have hs : s < nfa.flags.length := by
      have := hS s (List.mem_cons_self _ _)
      omega
    obtain ⟨f, hfs⟩ : ∃ f, nfa.flags.get? s = some f := ⟨_, List.get?_eq_get hs⟩
    obtain ⟨b, hb⟩ := ih (fun x hx => hS x (List.mem_cons_of_mem _ hx))
    by_cases hfin : f.final = true
    · refine ⟨true, ?_⟩
      rw [subset_has_final, hfs]
      simp [hfin]
    · refine ⟨b, ?_⟩
      rw [subset_has_final, hfs]
      simp [hfin, hb]

theorem lookup_id_none {ids : List (List Nat × Nat)} {s : List Nat}
    (h : lookup_id ids s = none) : ∀ p ∈ ids, p.1 ≠ s := by
  induction ids with
  | nil => intro p hp; cases hp
  | cons q rest ih =>
    rw [lookup_id] at h
    split at h
    · cases h
    · rename_i hq
      intro p hp
      rcases List.mem_cons.mp hp with rfl | hp
      · exact hq
      · exact ih h p hp

theorem lookup_id_mem_vals {ids : List (List Nat × Nat)} {s : List Nat} {v : Nat}
    (h : lookup_id ids s = some v) : v ∈ ids.map Prod.snd := by
  induction ids with
  | nil => cases h
  | cons q rest ih =>
    rw [lookup_id] at h
    split at h
    · injection h with h2
      subst h2
      exact List.mem_cons_self _ _
    · exact List.mem_cons_of_mem _ (ih h)

theorem lookup_id_isSome_of_mem {ids : List (List Nat × Nat)} {s : List Nat}
    (h : s ∈ ids.map Prod.fst) : ∃ v, lookup_id ids s = some v := by
  induction ids with
  | nil => cases h
  | cons q rest ih =>
    rw [lookup_id]
    split
    · exact ⟨q.2, rfl⟩
    · rename_i hq
      rcases List.mem_cons.mp h with h2 | h2
      · exact absurd h2.symm hq
      · exact ih h2

/-- Loop invariant of to_dfa_graph's worklist over an NFA with n states:
the map's values are exactly the ids 1 .. next_id-1 in assignment order
(the bijection of C3), its keys are distinct non-empty canonical subsets of
the state indices, queued subsets are keys, and recorded edges and final
ids stay inside the assigned id range. -/
structure DfaInv (n : Nat) (st : DfaState) : Prop where
  vals : st.ids.map Prod.snd = List.range' 1 (st.nextId - 1)
  keysNodup : (st.ids.map Prod.fst).Nodup
  keysOk : ∀ p ∈ st.ids, p.1 ≠ [] ∧ p.1.Pairwise (fun a b => a < b) ∧ ∀ x ∈ p.1, x < n
  queueOk : ∀ s ∈ st.queue, s ∈ st.ids.map Prod.fst
  edgesOk : ∀ e ∈ st.edges, 1 ≤ e.src ∧ e.src < st.nextId ∧ 1 ≤ e.dest ∧ e.dest < st.nextId
  finalsOk : ∀ v ∈ st.finals, 1 ≤ v ∧ v < st.nextId
  nextPos : 2 ≤ st.nextId

theorem dfa_inv_ids_length {n : Nat} {st : DfaState} (h : DfaInv n st) :
    st.ids.length = st.nextId - 1 := by
  have h2 := congrArg List.length h.vals
  simpa using h2

theorem dfa_inv_val_bounds {n : Nat} {st : DfaState} (h : DfaInv n st) {v : Nat}
    (hv : v ∈ st.ids.map Prod.snd) : 1 ≤ v ∧ v < st.nextId := by
  rw [h.vals] at hv
  obtain ⟨i, hi, hv⟩ := List.mem_range'.mp hv
  have h2 := h.nextPos
  omega

theorem dfa_symbol_step_ok {nfa : Graph}
    (hb : ∀ l ∈ nfa.adj, ∀ t ∈ l, t.dest < nfa.adj.length)
    {srcId : Nat} {S : List Nat} {c : Char} {st : DfaState}
    (hS : ∀ x ∈ S, x < nfa.adj.length)
    (hsrc : 1 ≤ srcId ∧ srcId < st.nextId)
    (hinv : DfaInv nfa.adj.length st) :
    ∃ st2, dfa_symbol_step nfa srcId S c st = some st2 ∧
      DfaInv nfa.adj.length st2 ∧
      st2.queue.length + st.ids.length = st.queue.length + st2.ids.length ∧
      st.nextId ≤ st2.nextId := by
  obtain ⟨D, hD, hDp, hDb⟩ := collect_dests_ok hb S c hS
  unfold dfa_symbol_step
  rw [hD]
  dsimp only
  by_cases hDnil : D = []
  · rw [if_pos hDnil]
    exact ⟨st, rfl, hinv, by omega, le_refl _⟩
  · rw [if_neg hDnil]
    cases hlk : lookup_id st.ids D with
    | some destId =>
      refine ⟨_, rfl, ?_, by simp, by simp⟩
      refine ⟨hinv.vals, hinv.keysNodup, hinv.keysOk, hinv.queueOk, ?_,
        hinv.finalsOk, hinv.nextPos⟩
      intro e he
      rcases List.mem_append.mp he with he | he
      · exact hinv.edgesOk e he
      · rw [List.mem_singleton] at he
        subst he
        have hdB := dfa_inv_val_bounds hinv (lookup_id_mem_vals hlk)
        exact ⟨hsrc.1, hsrc.2, hdB.1, hdB.2⟩
    | none =>
      refine ⟨_, rfl, ?_, ?_, ?_⟩
      · refine ⟨?_, ?_, ?_, ?_, ?_, ?_, ?_⟩
        · show (st.ids ++ [(D, st.nextId)]).map Prod.snd =
            List.range' 1 (st.nextId + 1 - 1)
          rw [List.map_append, hinv.vals]
          have h2 := hinv.nextPos
          have h3 : st.nextId + 1 - 1 = (st.nextId - 1) + 1 := by omega
          rw [h3, List.range'_concat]
          have h4 : 1 + 1 * (st.nextId - 1) = st.nextId := by omega
          rw [h4]
          rfl
        · show ((st.ids ++ [(D, st.nextId)]).map Prod.fst).Nodup
          rw [List.map_append]
          rw [List.nodup_append]
          refine ⟨hinv.keysNodup, by simp, ?_⟩
          intro a ha hb2
          simp only [List.map_cons, List.map_nil, List.mem_singleton] at hb2
          subst hb2
          rcases List.mem_map.mp ha with ⟨p, hp, hpa⟩
          exact lookup_id_none hlk p hp hpa
        · intro p hp
          rcases List.mem_append.mp hp with hp | hp
          · exact hinv.keysOk p hp
          · rw [List.mem_singleton] at hp
            subst hp
            exact ⟨hDnil, hDp, hDb⟩
        · intro s hs
          show s ∈ (st.ids ++ [(D, st.nextId)]).map Prod.fst
          rw [List.map_append]
          rcases List.mem_append.mp hs with hs | hs
          · exact List.mem_append_left _ (hinv.queueOk s hs)
          · rw [List.mem_singleton] at hs
            subst hs
            exact List.mem_append_right _ (by simp)
        · intro e he
          show 1 ≤ e.src ∧ e.src < st.nextId + 1 ∧ 1 ≤ e.dest ∧ e.dest < st.nextId + 1
          rcases List.mem_append.mp he with he | he
          · have h5 := hinv.edgesOk e he
            have h6 := h5.2.2.2
            exact ⟨h5.1, by omega, h5.2.2.1, by omega⟩
          · rw [List.mem_singleton] at he
            subst he
            show 1 ≤ srcId ∧ srcId < st.nextId + 1 ∧ 1 ≤ st.nextId ∧
              st.nextId < st.nextId + 1
            have h2 := hinv.nextPos
            exact ⟨hsrc.1, by omega, by omega, by omega⟩
        · intro v hv
          show 1 ≤ v ∧ v < st.nextId + 1
          have h5 := hinv.finalsOk v hv
          exact ⟨h5.1, by omega⟩
        · show 2 ≤ st.nextId + 1
          have h2 := hinv.nextPos
          omega
      · simp only [List.length_append, List.length_cons, List.length_nil]
        omega
      · simp

theorem dfa_symbols_ok {nfa : Graph}
    (hb : ∀ l ∈ nfa.adj, ∀ t ∈ l, t.dest < nfa.adj.length)
    {srcId : Nat} {S : List Nat}
    (hS : ∀ x ∈ S, x < nfa.adj.length) :
    ∀ (cs : List Char) (st : DfaState), 1 ≤ srcId → srcId < st.nextId →
    DfaInv nfa.adj.length st →
    ∃ st2, dfa_symbols nfa srcId S cs st = some st2 ∧
      DfaInv nfa.adj.length st2 ∧
      st2.queue.length + st.ids.length = st.queue.length + st2.ids.length ∧
      st.nextId ≤ st2.nextId := by
  intro cs
  induction cs with
  | nil => exact fun st _ _ hinv => ⟨st, rfl, hinv, by omega, le_refl _⟩
  | cons c cs ih =>
    intro st h1 h2 hinv
    obtain ⟨st1, hs1, hinv1, hm1, hn1⟩ := dfa_symbol_step_ok hb hS ⟨h1, h2⟩ hinv
    obtain ⟨st2, hs2, hinv2, hm2, hn2⟩ := ih st1 h1 (by omega) hinv1
    refine ⟨st2, ?_, hinv2, by omega, by omega⟩
    rw [dfa_symbols, hs1]
    exact hs2

theorem strict_sorted_eq : ∀ {l1 l2 : List Nat},
    l1.Pairwise (fun a b => a < b) → l2.Pairwise (fun a b => a < b) →
    (∀ x, x ∈ l1 ↔ x ∈ l2) → l1 = l2 := by
  intro l1
  induction l1 with
  | nil =>
    intro l2 _ _ hm
    cases l2 with
    | nil => rfl
    | cons b r2 => exact absurd ((hm b).mpr (List.mem_cons_self _ _)) (by simp)
  | cons a r1 ih =>
    intro l2 h1 h2 hm
    cases l2 with
    | nil => exact absurd ((hm a).mp (List.mem_cons_self _ _)) (by simp)
    | cons b r2 =>
      rcases List.pairwise_cons.mp h1 with ⟨ha1, hr1⟩
      rcases List.pairwise_cons.mp h2 with ⟨hb2, hr2⟩
      have hab : a = b := by
        have h3 := (hm a).mp (List.mem_cons_self _ _)
        have h4 := (hm b).mpr (List.mem_cons_self _ _)
        rcases List.mem_cons.mp h3 with h5 | h5
        · exact h5
        · rcases List.mem_cons.mp h4 with h6 | h6
          · exact h6.symm
          · have := hb2 a h5
            have := ha1 b h6
            omega
      subst hab
      have hr : ∀ x, x ∈ r1 ↔ x ∈ r2 := by
        intro x
        constructor
        · intro hx
          have h3 := (hm x).mp (List.mem_cons_of_mem _ hx)
          rcases List.mem_cons.mp h3 with h5 | h5
          · have := ha1 x hx
            omega
          · exact h5
        · intro hx
          have h3 := (hm x).mpr (List.mem_cons_of_mem _ hx)
          rcases List.mem_cons.mp h3 with h5 | h5
          · have := hb2 x hx
            omega
          · exact h5
      rw [ih hr1 hr2 hr]

theorem ids_card_bound {n : Nat} {st : DfaState} (hinv : DfaInv n st) :
    st.ids.length ≤ 2 ^ n - 1 := by
  classical
  have hno : ((st.ids.map Prod.fst).map List.toFinset).Nodup := by
    refine List.Nodup.map_on ?_ hinv.keysNodup
    intro x hx y hy hxy
    rcases List.mem_map.mp hx with ⟨px, hpx, rfl⟩
    rcases List.mem_map.mp hy with ⟨py, hpy, rfl⟩
    have hcx := (hinv.keysOk px hpx).2.1
    have hcy := (hinv.keysOk py hpy).2.1
    refine strict_sorted_eq hcx hcy ?_
    intro z
    constructor
    · intro hz
      have h2 : z ∈ px.1.toFinset := List.mem_toFinset.mpr hz
      rw [hxy] at h2
      exact List.mem_toFinset.mp h2
    · intro hz
      have h2 : z ∈ py.1.toFinset := List.mem_toFinset.mpr hz
      rw [← hxy] at h2
      exact List.mem_toFinset.mp h2
  have hmemT : ∀ F ∈ (st.ids.map Prod.fst).map List.toFinset,
      F ∈ ((Finset.range n).powerset.erase ∅) := by
    intro F hF
    rcases List.mem_map.mp hF with ⟨k, hk, rfl⟩
    rcases List.mem_map.mp hk with ⟨p, hp, rfl⟩
    obtain ⟨hne, hso, hbd⟩ := hinv.keysOk p hp
    rw [Finset.mem_erase]
    constructor
    · intro hemp
      cases hpk : p.1 with
      | nil => exact hne hpk
      | cons x xs =>
        have : x ∈ p.1.toFinset := List.mem_toFinset.mpr (hpk ▸ List.mem_cons_self _ _)
        rw [hemp] at this
        cases this
    · rw [Finset.mem_powerset]
      intro z hz
      rw [Finset.mem_range]
      exact hbd z (List.mem_toFinset.mp hz)
  have hsub : ((st.ids.map Prod.fst).map List.toFinset).toFinset ⊆
      (Finset.range n).powerset.erase ∅ := by
    intro F hF
    exact hmemT F (List.mem_toFinset.mp hF)
  have hcard := Finset.card_le_card hsub
  rw [List.toFinset_card_of_nodup hno] at hcard
  rw [Finset.card_erase_of_mem (Finset.empty_mem_powerset _),
    Finset.card_powerset, Finset.card_range] at hcard
  simpa using hcard

theorem dfa_loop_ok {nfa : Graph}
    (hb : ∀ l ∈ nfa.adj, ∀ t ∈ l, t.dest < nfa.adj.length)
    (hf : nfa.adj.length ≤ nfa.flags.length) :
    ∀ (fuel : Nat) (st : DfaState), DfaInv nfa.adj.length st →
    st.queue.length + (2 ^ nfa.adj.length - 1) ≤ fuel + st.ids.length →
    ∃ st2, dfa_loop nfa fuel st = some st2 ∧ DfaInv nfa.adj.length st2 := by
  intro fuel
  induction fuel with
  | zero =>
    intro st hinv hm
    cases hq : st.queue with
    | nil => exact ⟨st, by rw [dfa_loop, hq], hinv⟩
    | cons s rest =>
      exfalso
      have hbound := ids_card_bound hinv
      rw [hq] at hm
      simp only [List.length_cons] at hm
      omega
  | succ fuel ih =>
    intro st hinv hm
    cases hq : st.queue with
    | nil => exact ⟨st, by rw [dfa_loop, hq], hinv⟩
    | cons s rest =>
      have hkey : s ∈ st.ids.map Prod.fst := hinv.queueOk s (by rw [hq]; simp)
      obtain ⟨srcId, hlk⟩ := lookup_id_isSome_of_mem hkey
      have hsrcB := dfa_inv_val_bounds hinv (lookup_id_mem_vals hlk)
      obtain ⟨p, hp, hps⟩ := List.mem_map.mp hkey
      have hSb : ∀ x ∈ s, x < nfa.adj.length := by
        intro x hx
        exact (hinv.keysOk p hp).2.2 x (by rw [hps]; exact hx)
      obtain ⟨isF, hisF⟩ := subset_has_final_ok hf s hSb
      have hinv1 : DfaInv nfa.adj.length
          { st with
            queue := rest,
            finals := if isF then ins_nat srcId st.finals else st.finals } := by
        refine ⟨hinv.vals, hinv.keysNodup, hinv.keysOk, ?_, hinv.edgesOk, ?_,
          hinv.nextPos⟩
        · intro s2 hs2
          exact hinv.queueOk s2 (by rw [hq]; exact List.mem_cons_of_mem _ hs2)
        · intro v hv
          show 1 ≤ v ∧ v < st.nextId
          cases isF with
          | true =>
            simp only [if_true] at hv
            rcases mem_ins_nat.mp hv with rfl | hv
            · exact ⟨hsrcB.1, hsrcB.2⟩
            · exact hinv.finalsOk v hv
          | false =>
            simp only [Bool.false_eq_true, if_false] at hv
            exact hinv.finalsOk v hv
      obtain ⟨st2, hsym, hinv2, hm2, hn2⟩ := dfa_symbols_ok hb hSb lowercase_syms
        { st with
          queue := rest,
          finals := if isF then ins_nat srcId st.finals else st.finals }
        hsrcB.1 hsrcB.2 hinv1
      dsimp only at hm2
      have hql : st.queue.length = rest.length + 1 := by rw [hq]; rfl
      obtain ⟨st3, hloop, hinv3⟩ := ih st2 hinv2 (by omega)
      refine ⟨st3, ?_, hinv3⟩
      have hstep : dfa_loop nfa (fuel + 1) st =
          (dfa_symbols nfa srcId s lowercase_syms
            { st with
              queue := rest,
              finals := if isF then ins_nat srcId st.finals else st.finals }).bind
            (fun stx => dfa_loop nfa fuel stx) := by
        rw [dfa_loop, hq]
        dsimp only
        rw [hlk, hisF]
      rw [hstep, hsym]
      exact hloop

theorem build_edges_length : ∀ (es : List Edge) (adj adj2 : List (List Transition)),
    build_edges adj es = some adj2 → adj2.length = adj.length := by
  intro es
  induction es with
  | nil =>
    intro adj adj2 h
    injection h with h2
    rw [← h2]
  | cons e es ih =>
    intro adj adj2 h
    rw [build_edges] at h
    split at h
    · cases h
    · cases hg : adj.get? (e.src - 1) with
      | none =>
        rw [push_edge, hg] at h
        cases h
      | some l =>
        rw [push_edge, hg] at h
        replace h : build_edges (adj.set (e.src - 1) (l ++ [⟨e.dest - 1, e.symbol⟩]))
            es = some adj2 := h
        rw [ih _ _ h, List.length_set]

theorem build_edges_ok : ∀ (es : List Edge) (adj : List (List Transition)),
    (∀ e ∈ es, 1 ≤ e.src ∧ e.src - 1 < adj.length) →
    ∃ adj2, build_edges adj es = some adj2 := by
  intro es
  induction es with
  | nil => exact fun adj _ => ⟨adj, rfl⟩
  | cons e es ih =>
    intro adj hb
    have h1 := hb e (List.mem_cons_self _ _)
    have hlt : e.src - 1 < adj.length := h1.2
    have hget : adj.get? (e.src - 1) = some (adj.get ⟨_, hlt⟩) := List.get?_eq_get hlt
    obtain ⟨adj2, hA⟩ := ih
      (adj.set (e.src - 1) (adj.get ⟨_, hlt⟩ ++ [⟨e.dest - 1, e.symbol⟩]))
      (fun e2 he2 => by
        have h3 := hb e2 (List.mem_cons_of_mem _ he2)
        rw [List.length_set]
        exact h3)
    refine ⟨adj2, ?_⟩
    have hstep : build_edges adj (e :: es) =
        build_edges (adj.set (e.src - 1)
          (adj.get ⟨_, hlt⟩ ++ [⟨e.dest - 1, e.symbol⟩])) es := by
      rw [build_edges, if_neg (by omega), push_edge, hget]
      rfl
    rw [hstep]
    exact hA

theorem mark_finals_length : ∀ (fs : List Nat) (flags flags2 : List Flags),
    mark_finals flags fs = some flags2 → flags2.length = flags.length := by
  intro fs
  induction fs with
  | nil =>
    intro flags flags2 h
    injection h with h2
    rw [← h2]
  | cons v vs ih =>
    intro flags flags2 h
    rw [mark_finals] at h
    split at h
    · cases h
    · cases hg : flags.get? (v - 1) with
      | none => rw [hg] at h; cases h
      | some f =>
        rw [hg] at h
        replace h : mark_finals (flags.set (v - 1) ⟨f.visited, f.start, true⟩) vs
            = some flags2 := h
        rw [ih _ _ h, List.length_set]

theorem mark_finals_ok : ∀ (fs : List Nat) (flags : List Flags),
    (∀ v ∈ fs, 1 ≤ v ∧ v - 1 < flags.length) →
    ∃ flags2, mark_finals flags fs = some flags2 := by
  intro fs
  induction fs with
  | nil => exact fun flags _ => ⟨flags, rfl⟩
  | cons v vs ih =>
    intro flags hb
    have h1 := hb v (List.mem_cons_self _ _)
    obtain ⟨f, hget⟩ : ∃ f, flags.get? (v - 1) = some f := ⟨_, List.get?_eq_get h1.2⟩
    obtain ⟨flags2, hA⟩ := ih (flags.set (v - 1) ⟨f.visited, f.start, true⟩)
      (fun v2 hv2 => by
        have h3 := hb v2 (List.mem_cons_of_mem _ hv2)
        rw [List.length_set]
        exact h3)
    refine ⟨flags2, ?_⟩
    have hstep : mark_finals flags (v :: vs) =
        mark_finals (flags.set (v - 1) ⟨f.visited, f.start, true⟩) vs := by
      rw [mark_finals, if_neg (by omega), hget]
    rw [hstep]
    exact hA

/-- Well-formed epsilon-free NFA graph: at least one state (the start index
is in range), a flag entry for every state, and in-range destinations. -/
def wf_nfa (g : Graph) : Prop :=
  g.start < g.adj.length ∧ g.adj.length ≤ g.flags.length ∧
  ∀ l ∈ g.adj, ∀ t ∈ l, t.dest < g.adj.length

theorem dfa_run_inv {nfa : Graph} (hw : wf_nfa nfa) :
    ∃ st, dfa_run nfa = some st ∧ DfaInv nfa.adj.length st := by
  obtain ⟨hstart, hflags, hbnd⟩ := hw
  have hinv0 : DfaInv nfa.adj.length ⟨[[nfa.start]], [([nfa.start], 1)], [], [], 2⟩ := by
    refine ⟨rfl, by simp, ?_, ?_, by simp, by simp, Nat.le_refl 2⟩
    · intro p hp
      rw [List.mem_singleton] at hp
      subst hp
      refine ⟨by simp, by simp, ?_⟩
      intro x hx
      rw [List.mem_singleton] at hx
      subst hx
      exact hstart
    · intro s hs
      rw [List.mem_singleton] at hs
      subst hs
      simp
  have hpow : 0 < 2 ^ nfa.adj.length := pow_pos (by omega) _
  obtain ⟨st, hloop, hinv⟩ := dfa_loop_ok hbnd hflags (2 ^ nfa.adj.length)
    ⟨[[nfa.start]], [([nfa.start], 1)], [], [], 2⟩ hinv0 (by
      show 1 + (2 ^ nfa.adj.length - 1) ≤ 2 ^ nfa.adj.length + 1
      omega)
  exact ⟨st, hloop, hinv⟩

/-- C4 amended: the Subset Constructor performs no out-of-bounds access (in
the embedding: returns a present result) on every well-formed epsilon-free
NFA graph, which is necessarily non-empty; applied to the empty NFA graph it
reads nfa.flags[start] out of bounds instead of yielding an empty DFA. -/
theorem c4_no_failure_on_wf_nfa (nfa : Graph) (hw : wf_nfa nfa) :
    (to_dfa_graph nfa).isSome = true := by
  obtain ⟨st, hloop, hinv⟩ := dfa_run_inv hw
  obtain ⟨adj2, hBE⟩ := build_edges_ok st.edges (List.replicate (st.nextId - 1) [])
    (by
      intro e he
      have h5 := hinv.edgesOk e he
      have h6 := h5.2.1
      rw [List.length_replicate]
      exact ⟨h5.1, by omega⟩)
  obtain ⟨flags2, hMF⟩ := mark_finals_ok st.finals
    (List.replicate (st.nextId - 1) ⟨false, false, false⟩)
    (by
      intro v hv
      have h5 := hinv.finalsOk v hv
      rw [List.length_replicate]
      exact ⟨h5.1, by omega⟩)
  have hlen2 : flags2.length = st.nextId - 1 := by
    rw [mark_finals_length _ _ _ hMF, List.length_replicate]
  have h0lt : 0 < flags2.length := by
    have h7 := hinv.nextPos
    omega
  obtain ⟨f0, hget0⟩ : ∃ f0, flags2.get? 0 = some f0 := ⟨_, List.get?_eq_get h0lt⟩
  unfold to_dfa_graph
  rw [hloop]
  show ((build_edges (List.replicate (st.nextId - 1) []) st.edges).bind
    _).isSome = true
  rw [hBE]
  show ((mark_finals (List.replicate (st.nextId - 1) ⟨false, false, false⟩)
    st.finals).bind _).isSome = true
  rw [hMF]
  show (match flags2.get? 0 with
        | none => none
        | some f0 =>
          some (⟨adj2, flags2.set 0 ⟨f0.visited, true, f0.final⟩, 0⟩ : Graph)).isSome
      = true
  rw [hget0]
  rfl

/-- C4 witness: the amended statement at a concrete two-state NFA. -/
theorem c4_no_failure_on_wf_nfa_witness : (to_dfa_graph nfaUpperA).isSome = true :=
  c4_no_failure_on_wf_nfa nfaUpperA ⟨by decide, by decide, by decide⟩

theorem pairwise_foldr_ins_nat (l : List Nat) :
    (l.foldr ins_nat []).Pairwise (fun a b => a < b) := by
  induction l with
  | nil => simp
  | cons x xs ih => exact pairwise_ins_nat ih

theorem mem_foldr_ins_nat {l : List Nat} {a : Nat} :
    a ∈ l.foldr ins_nat [] ↔ a ∈ l := by
  induction l with
  | nil => simp
  | cons x xs ih =>
    show a ∈ ins_nat x (xs.foldr ins_nat []) ↔ a ∈ x :: xs
    rw [mem_ins_nat, ih]
    simp [List.mem_cons]

/-- One step of the boost hash_combine fold in the program's std::hash
specialization for unordered_set of usize (main.cpp:128):
seed = seed XOR (x + 0x9e3779b9 + (seed shifted left by 6) + (seed shifted
right by 2)), in wrapping 64-bit size_t arithmetic. -/
def hash_combine (seed x : Nat) : Nat :=
  seed ^^^ ((x + 0x9e3779b9 + (seed <<< 6) + (seed >>> 2)) % 2 ^ 64)

/-- The subset hasher of main.cpp:122-133: fold hash_combine over the
elements in the unordered_set's iteration order, starting from seed 0. -/
def set_hash (xs : List Nat) : Nat := xs.foldl hash_combine 0

/-- C3: the deduplication key of the subset-to-id map is not
order-independent: to_dfa_graph keys its unordered_map by the program's
unordered_set hasher, the boost hash_combine fold over the set's iteration
order, and the two iteration orders of the set with elements 0 and 1 --
identified by the canonical encoding -- hash to different values. Set-equal
subsets built with different insertion histories can therefore hash apart,
miss the existing map entry and be assigned distinct DFA ids, so the
claimed canonical key and subset-to-id bijection are not guaranteed by the
code. -/
theorem c3_hash_order_dependent :
    [0, 1].foldr ins_nat [] = [1, 0].foldr ins_nat [] ∧
    set_hash [0, 1] ≠ set_hash [1, 0] :=
  ⟨by decide, by decide⟩

/-! ## to_graph: pointer NFA → index graph (pre-order DFS)

The DFS stores visited marks and assigned ids in the nodes; the embedding
keeps them in two side vectors indexed like the arena. START_UNINITIALIZED
is the none of an Option. The recursion depth is bounded by one plus the
number of unvisited nodes, so the fuel passed by to_graph never runs out. -/

structure TGState where
  visited : List Bool
  ids : List (Option Nat)
  adj : List (List Transition)
  flags : List Flags
  start : Option Nat
deriving Repr, DecidableEq

/-- flags[i] |= START. -/
def flag_or_start (flags : List Flags) (i : Nat) : List Flags :=
  match flags.get? i with
  | none => flags
  | some f => flags.set i ⟨f.visited, true, f.final⟩

/-- flags[i] |= FINAL * b. -/
def flag_or_final (flags : List Flags) (i : Nat) (b : Bool) : List Flags :=
  match flags.get? i with
  | none => flags
  | some f => flags.set i ⟨f.visited, f.start, f.final || b⟩

/-- One neighbour slot of to_graph_helper: if the pointer is non-null,
recurse (helperFn is the recursive call at the already-decremented fuel),
then append the edge (neighbour id, slot symbol) to adj[src's id]. -/
def tg_child (helperFn : Nat → TGState → Option TGState) (ref : Option Nat)
    (sym : Char) (src : Nat) (st : TGState) : Option TGState :=
  match ref with
  | none => some st
  | some v =>
    (helperFn v st).bind fun st2 =>
      match st2.ids.get? src, st2.ids.get? v with
      | some (some sid), some (some vid) =>
        (match st2.adj.get? sid with
         | some lsid =>
           some { st2 with adj := st2.adj.set sid (lsid ++ [⟨vid, sym⟩]) }
         | none => none)
      | _, _ => none

/-- to_graph_helper: mark src visited, assign it the next id (one new adj row
and flags entry), set START on the first node created, FINAL when both
neighbour slots are null, then visit the two neighbour slots in order. -/
def tg_helper (A : List NFANode) : Nat → Nat → TGState → Option TGState
  | 0, _, _ => none
  | fuel + 1, src, st =>
    match st.visited.get? src with
    | none => none
    | some true => some st
    | some false =>
      match A.get? src with
      | none => none
      | some node =>
        let id := st.adj.length
        let st1 : TGState :=
          ⟨st.visited.set src true, st.ids.set src (some id),
           st.adj ++ [[]], st.flags ++ [⟨false, false, false⟩], st.start⟩
        let st2 : TGState :=
          if st.start = none then
            ⟨st1.visited, st1.ids, st1.adj, flag_or_start st1.flags id, some id⟩
          else st1
        let st3 : TGState :=
          ⟨st2.visited, st2.ids, st2.adj,
           flag_or_final st2.flags id
             (decide (node.n0 = none) && decide (node.n1 = none)),
           st2.start⟩
        (tg_child (tg_helper A fuel) node.n0 node.s0 src st3).bind
          (tg_child (tg_helper A fuel) node.n1 node.s1 src)

/-- to_graph: run the DFS from the root on fresh side vectors; the assert
that a start state was found becomes the none case. -/
def to_graph (A : List NFANode) (root : Nat) : Option Graph :=
  (tg_helper A (A.length + 1) root
      ⟨List.replicate A.length false, List.replicate A.length none, [], [], none⟩).bind
    fun st =>
      match st.start with
      | none => none
      | some s => some ⟨st.adj, st.flags, s⟩

/-- main's whole regex-to-DFA pipeline over a configured alphabet. -/
def full_pipeline (alpha : Char → Bool) (infixStr : List Char) : Option Graph :=
  (postfix_of alpha (add_concatenation_op alpha infixStr)).bind fun p =>
    (get_nfa p).bind fun ar =>
      (to_graph ar.1 ar.2).bind fun g =>
        (eps_elim g).bind to_dfa_graph

/-- The DFA main's pipeline produces for the regex a* over the alphabet {a}:
state 0 (start, final) steps on a to state 1 (final), and state 1 carries the
self-loop on a. -/
def dfaAStar : Graph :=
  ⟨[[⟨1, 'a'⟩], [⟨1, 'a'⟩]],
   [⟨false, true, true⟩, ⟨false, false, true⟩], 0⟩

/-- C5 counterexample: in the DFA the full pipeline produces for a* over {a},
the start state carries no transition on a back to itself — its only
transition on a leaves to state 1. -/
theorem c5_no_self_loop_on_start :
    full_pipeline alphaA "a*".toList = some dfaAStar ∧
    ∀ t ∈ dfaAStar.adj.getD dfaAStar.start [],
      ¬(t.dest = dfaAStar.start ∧ t.symbol = 'a') :=
  ⟨by decide, by decide⟩

/-- C5 amended: for a* over {a}, the start state is itself final and moves on
a to a distinct final state; the self-loop on a sits on that successor state,
not on the start state. -/
theorem c5_astar_start_final_successor_loop :
    full_pipeline alphaA "a*".toList = some dfaAStar ∧
    (dfaAStar.flags.getD dfaAStar.start ⟨false, false, false⟩).start = true ∧
    (dfaAStar.flags.getD dfaAStar.start ⟨false, false, false⟩).final = true ∧
    dfaAStar.adj.getD dfaAStar.start [] = [⟨1, 'a'⟩] ∧
    (1 : Nat) ≠ dfaAStar.start ∧
    (dfaAStar.flags.getD 1 ⟨false, false, false⟩).final = true ∧
    dfaAStar.adj.getD 1 [] = [⟨1, 'a'⟩] := by
  refine ⟨by decide, by decide, by decide, by decide, by decide, by decide, by decide⟩

/-- Number of open parentheses held on the operator stack. -/
def lp_count (ops : List Char) : Nat := ops.countP (fun o => decide (o = '('))

theorem ne_lparen_of_op {alpha : Char → Bool} {c : Char}
    (h : type_of alpha c = TokenType.OPERATOR) : c ≠ '(' := by
  rintro rfl
  unfold type_of at h
  split at h
  · cases h
  · split at h
    · rename_i h2
      exact h2 (by decide)
    · split at h
      · cases h
      · split at h
        · cases h
        · cases h

theorem eq_lparen_of_type {alpha : Char → Bool} {c : Char}
    (h : type_of alpha c = TokenType.LEFT_PAREN) : c = '(' := by
  unfold type_of at h
  split at h
  · cases h
  · split at h
    · cases h
    · split at h
      · assumption
      · split at h
        · cases h
        · cases h

theorem pop_ops_lp_count (token : Char) :
    ∀ (ops out : List Char), lp_count (pop_ops token out ops).2 = lp_count ops := by
  intro ops
  induction ops with
  | nil => intro out; rfl
  | cons top rest ih =>
    intro out
    rw [pop_ops]
    split
    · rfl
    · split
      · rfl
      · rename_i h1 h2
        rw [ih]
        unfold lp_count
        rw [List.countP_cons]
        simp [h1]

theorem pop_until_none_iff : ∀ (ops out : List Char),
    (pop_until_lparen out ops = none ↔ lp_count ops = 0) := by
  intro ops
  induction ops with
  | nil => intro out; simp [pop_until_lparen, lp_count]
  | cons top rest ih =>
    intro out
    rw [pop_until_lparen]
    unfold lp_count
    rw [List.countP_cons]
    split
    · rename_i h1
      simp [h1]
    · rename_i h1
      rw [ih]
      unfold lp_count
      simp [h1]

theorem pop_until_some_count : ∀ (ops out out2 ops2 : List Char),
    pop_until_lparen out ops = some (out2, ops2) →
    lp_count ops2 = lp_count ops - 1 := by
  intro ops
  induction ops with
  | nil => intro out out2 ops2 h; cases h
  | cons top rest ih =>
    intro out out2 ops2 h
    rw [pop_until_lparen] at h
    split at h
    · rename_i h1
      injection h with h2
      injection h2 with h3 h4
      subst h4
      unfold lp_count
      rw [List.countP_cons]
      simp [h1]
    · rename_i h1
      have h5 := ih _ _ _ h
      rw [h5]
      unfold lp_count
      rw [List.countP_cons]
      simp [h1]

theorem drain_ops_none_iff : ∀ (ops out : List Char),
    (drain_ops out ops = none ↔ lp_count ops ≠ 0) := by
  intro ops
  induction ops with
  | nil => intro out; simp [drain_ops, lp_count]
  | cons top rest ih =>
    intro out
    rw [drain_ops]
    unfold lp_count
    rw [List.countP_cons]
    split
    · rename_i h1
      simp [h1]
    · rename_i h1
      rw [ih]
      unfold lp_count
      simp [h1]

theorem err_cons_iff {alpha : Char → Bool} {c : Char} {cs : List Char}
    (h : type_of alpha c ≠ TokenType.ERROR) :
    ((∃ x ∈ c :: cs, type_of alpha x = TokenType.ERROR) ↔
      (∃ x ∈ cs, type_of alpha x = TokenType.ERROR)) := by
  constructor
  · rintro ⟨x, hx, he⟩
    rcases List.mem_cons.mp hx with rfl | hx
    · exact absurd he h
    · exact ⟨x, hx, he⟩
  · rintro ⟨x, hx, he⟩
    exact ⟨x, List.mem_cons_of_mem _ hx, he⟩

theorem sy_main (alpha : Char → Bool) :
    ∀ (s out ops : List Char),
    (((sy_run alpha (out, ops) s).bind fun st => drain_ops st.1 st.2) = none ↔
      (∃ c ∈ s, type_of alpha c = TokenType.ERROR) ∨
        balanced_from alpha (lp_count ops) s = false) := by
  intro s
  induction s with
  | nil =>
    intro out ops
    show (drain_ops out ops = none ↔ _)
    rw [drain_ops_none_iff, balanced_from]
    simp
  | cons c cs ih =>
    intro out ops
    rw [sy_run]
    cases htc : type_of alpha c with
    | REGULAR =>
      have hstep : sy_step alpha (out, ops) c = some (out ++ [c], ops) := by
        rw [sy_step, htc]
      have hbal : balanced_from alpha (lp_count ops) (c :: cs) =
          balanced_from alpha (lp_count ops) cs := by
        rw [balanced_from, htc]
      simp only [hstep, Option.some_bind]
      rw [ih (out ++ [c]) ops, hbal, err_cons_iff (by rw [htc]; decide)]
    | OPERATOR =>
      have hstep : sy_step alpha (out, ops) c =
          some ((pop_ops c out ops).1, c :: (pop_ops c out ops).2) := by
        rw [sy_step, htc]
      have hcnt : lp_count (c :: (pop_ops c out ops).2) = lp_count ops := by
        have h2 := pop_ops_lp_count c ops out
        unfold lp_count at h2 ⊢
        rw [List.countP_cons]
        simp [ne_lparen_of_op htc, h2]
      have hbal : balanced_from alpha (lp_count ops) (c :: cs) =
          balanced_from alpha (lp_count ops) cs := by
        rw [balanced_from, htc]
      simp only [hstep, Option.some_bind]
      rw [ih (pop_ops c out ops).1 (c :: (pop_ops c out ops).2), hcnt, hbal,
        err_cons_iff (by rw [htc]; decide)]
    | LEFT_PAREN =>
      have hstep : sy_step alpha (out, ops) c = some (out, c :: ops) := by
        rw [sy_step, htc]
      have hc := eq_lparen_of_type htc
      have hcnt : lp_count (c :: ops) = lp_count ops + 1 := by
        unfold lp_count
        rw [List.countP_cons]
        simp [hc]
      have hbal : balanced_from alpha (lp_count ops) (c :: cs) =
          balanced_from alpha (lp_count ops + 1) cs := by
        rw [balanced_from, htc]
      simp only [hstep, Option.some_bind]
      rw [ih out (c :: ops), hcnt, hbal, err_cons_iff (by rw [htc]; decide)]
    | RIGHT_PAREN =>
      have hstep : sy_step alpha (out, ops) c = pop_until_lparen out ops := by
        rw [sy_step, htc]
      cases hres : pop_until_lparen out ops with
      | none =>
        have hcount0 : lp_count ops = 0 := (pop_until_none_iff ops out).mp hres
        have hbal : balanced_from alpha (lp_count ops) (c :: cs) = false := by
          rw [balanced_from, htc, hcount0]
          simp
        rw [hstep, hres]
        simp [hbal]
      | some p =>
        obtain ⟨out2, ops2⟩ := p
        have hne : lp_count ops ≠ 0 := by
          intro h0
          rw [(pop_until_none_iff ops out).mpr h0] at hres
          cases hres
        have hcnt := pop_until_some_count ops out out2 ops2 hres
        have hbal : balanced_from alpha (lp_count ops) (c :: cs) =
            balanced_from alpha (lp_count ops - 1) cs := by
          rw [balanced_from, htc]
          simp [hne]
        rw [hstep, hres]
        simp only [Option.some_bind]
        rw [ih out2 ops2, hcnt, hbal, err_cons_iff (by rw [htc]; decide)]
    | ERROR =>
      have hstep : sy_step alpha (out, ops) c = none := by
        rw [sy_step, htc]
      rw [hstep]
      simp only [Option.none_bind]
      constructor
      · intro
        exact Or.inl ⟨c, List.mem_cons_self _ _, htc⟩
      · intro
        trivial

/-- C7: get_postfix fails exactly when the input contains an Invalid
character or its parenthesization is unbalanced (a right parenthesis with no
open group — the operator stack would empty before a left parenthesis is
found — or a group still open at end of input); on every other input it
returns a postfix string. -/
theorem c7_postfix_fails_iff (alpha : Char → Bool) (s : List Char) :
    postfix_of alpha s = none ↔
      (∃ c ∈ s, type_of alpha c = TokenType.ERROR) ∨
        balanced_from alpha 0 s = false := by
  have h := sy_main alpha s [] []
  have h0 : lp_count [] = 0 := rfl
  rw [h0] at h
  exact h

/-! ## C8: pointer-graph reachability and the fragment invariant

The Thompson builder keeps, for every fragment on its stack, a single
dangling node — the fragment's exit — among the nodes reachable from the
fragment's entry. to_graph then copies exactly the reachable nodes into the
graph, marking FINAL precisely the dangling ones and START exactly once. -/

/-- u has an outgoing pointer to v in the arena. -/
def edge_to (A : List NFANode) (u v : Nat) : Prop :=
  ∃ node, A.get? u = some node ∧ (node.n0 = some v ∨ node.n1 = some v)

/-- v is reachable from s following neighbour pointers. -/
inductive reach (A : List NFANode) (s : Nat) : Nat → Prop where
  | refl : reach A s s
  | step {u v : Nat} : reach A s u → edge_to A u v → reach A s v

/-- A node whose two neighbour slots are both null. -/
def dangling (A : List NFANode) (v : Nat) : Prop :=
  ∃ node, A.get? v = some node ∧ node.n0 = none ∧ node.n1 = none

instance (A : List NFANode) (v : Nat) : Decidable (dangling A v) :=
  match h : A.get? v with
  | none => isFalse (by rintro ⟨n, hn, -⟩; rw [h] at hn; cases hn)
  | some n =>
    if hd : n.n0 = none ∧ n.n1 = none then
      isTrue ⟨n, h, hd.1, hd.2⟩
    else
      isFalse (by
        rintro ⟨m, hm, h0, h1⟩
        rw [h] at hm
        injection hm with hm2
        subst hm2
        exact hd ⟨h0, h1⟩)

theorem reach_closed {A : List NFANode} {s : Nat} (X : Nat → Prop) (hs : X s)
    (hcl : ∀ u v, X u → edge_to A u v → X v) : ∀ t, reach A s t → X t := by
  intro t ht
  induction ht with
  | refl => exact hs
  | step h1 h2 ih => exact hcl _ _ ih h2

theorem reach_trans {A : List NFANode} {s u v : Nat} (h1 : reach A s u)
    (h2 : reach A u v) : reach A s v := by
  induction h2 with
  | refl => exact h1
  | step h3 h4 ih => exact reach.step ih h4

/-- Every stored neighbour pointer stays inside the arena. -/
def closed_arena (A : List NFANode) : Prop :=
  ∀ node ∈ A, (∀ v, node.n0 = some v → v < A.length) ∧
    (∀ v, node.n1 = some v → v < A.length)

theorem edge_to_lt {A : List NFANode} {u v : Nat} (hc : closed_arena A)
    (h : edge_to A u v) : v < A.length := by
  obtain ⟨node, hn, hv⟩ := h
  have hmem : node ∈ A := List.get?_mem hn
  rcases hv with hv | hv
  · exact (hc node hmem).1 v hv
  · exact (hc node hmem).2 v hv

theorem edge_to_src_lt {A : List NFANode} {u v : Nat} (h : edge_to A u v) :
    u < A.length := by
  obtain ⟨node, hn, -⟩ := h
  by_cases hu : u < A.length
  · exact hu
  · rw [List.get?_eq_none.mpr (by omega)] at hn
    cases hn

theorem reach_lt {A : List NFANode} (hc : closed_arena A) {s t : Nat}
    (hs : s < A.length) (h : reach A s t) : t < A.length := by
  refine reach_closed (fun t => t < A.length) hs ?_ t h
  intro u v _ he
  exact edge_to_lt hc he

theorem edge_to_append {A B : List NFANode} {u v : Nat} (h : edge_to A u v) :
    edge_to (A ++ B) u v := by
  obtain ⟨node, hn, hv⟩ := h
  have hu : u < A.length := edge_to_src_lt ⟨node, hn, hv⟩
  exact ⟨node, by rw [List.get?_append hu]; exact hn, hv⟩

theorem reach_append {A B : List NFANode} {s t : Nat} (h : reach A s t) :
    reach (A ++ B) s t := by
  induction h with
  | refl => exact reach.refl
  | step h1 h2 ih => exact reach.step ih (edge_to_append h2)

theorem reach_append_rev {A B : List NFANode} (hc : closed_arena A) {s t : Nat}
    (hs : s < A.length) (h : reach (A ++ B) s t) : reach A s t := by
  have hX := reach_closed (A := A ++ B) (s := s)
    (fun t => reach A s t ∧ t < A.length) ⟨reach.refl, hs⟩ ?_ t h
  · exact hX.1
  · intro u v hu he
    obtain ⟨node, hn, hv⟩ := he
    rw [List.get?_append hu.2] at hn
    have he2 : edge_to A u v := ⟨node, hn, hv⟩
    exact ⟨reach.step hu.1 he2, edge_to_lt hc he2⟩

theorem dangling_append {A B : List NFANode} {v : Nat} (h : dangling A v) :
    dangling (A ++ B) v := by
  obtain ⟨node, hn, h0, h1⟩ := h
  have hv : v < A.length := by
    by_cases hv : v < A.length
    · exact hv
    · rw [List.get?_eq_none.mpr (by omega)] at hn
      cases hn
  exact ⟨node, by rw [List.get?_append hv]; exact hn, h0, h1⟩

theorem dangling_append_rev {A B : List NFANode} {v : Nat} (hv : v < A.length)
    (h : dangling (A ++ B) v) : dangling A v := by
  obtain ⟨node, hn, h0, h1⟩ := h
  rw [List.get?_append hv] at hn
  exact ⟨node, hn, h0, h1⟩

theorem dangling_lt {A : List NFANode} {v : Nat} (h : dangling A v) :
    v < A.length := by
  obtain ⟨node, hn, -⟩ := h
  by_cases hv : v < A.length
  · exact hv
  · rw [List.get?_eq_none.mpr (by omega)] at hn
    cases hn

theorem edge_to_set_of_ne {A : List NFANode} {d : Nat} {nd : NFANode} {u v : Nat}
    (hne : u ≠ d) (h : edge_to A u v) : edge_to (A.set d nd) u v := by
  obtain ⟨node, hn, hv⟩ := h
  exact ⟨node, by rw [List.get?_set_ne _ _ (fun he => hne he.symm)]; exact hn, hv⟩

theorem edge_to_set_mono {A : List NFANode} {d : Nat} {nd : NFANode} {u v : Nat}
    (hd : dangling A d) (h : edge_to A u v) : edge_to (A.set d nd) u v := by
  refine edge_to_set_of_ne ?_ h
  rintro rfl
  obtain ⟨node, hn, hv⟩ := h
  obtain ⟨node2, hn2, h0, h1⟩ := hd
  rw [hn] at hn2
  injection hn2 with hn3
  subst hn3
  rcases hv with hv | hv
  · rw [h0] at hv; cases hv
  · rw [h1] at hv; cases hv

theorem reach_set_mono {A : List NFANode} {d : Nat} {nd : NFANode} {s t : Nat}
    (hd : dangling A d) (h : reach A s t) : reach (A.set d nd) s t := by
  induction h with
  | refl => exact reach.refl
  | step h1 h2 ih => exact reach.step ih (edge_to_set_mono hd h2)

theorem edge_to_set_elim {A : List NFANode} {d : Nat} {nd : NFANode} {u v : Nat}
    (h : edge_to (A.set d nd) u v) :
    (u ≠ d ∧ edge_to A u v) ∨ (u = d ∧ (nd.n0 = some v ∨ nd.n1 = some v)) := by
  obtain ⟨node, hn, hv⟩ := h
  by_cases hud : u = d
  · subst hud
    have hu : u < A.length := by
      by_cases hu : u < A.length
      · exact hu
      · rw [List.set_eq_of_length_le (by omega)] at hn
        rw [List.get?_eq_none.mpr (by omega)] at hn
        cases hn
    rw [List.get?_set_eq_of_lt _ hu] at hn
    injection hn with hn2
    subst hn2
    exact Or.inr ⟨rfl, hv⟩
  · rw [List.get?_set_ne _ _ (fun he => hud he.symm)] at hn
    exact Or.inl ⟨hud, ⟨node, hn, hv⟩⟩

theorem dangling_set_of_ne {A : List NFANode} {d : Nat} {nd : NFANode} {v : Nat}
    (hne : v ≠ d) (h : dangling A v) : dangling (A.set d nd) v := by
  obtain ⟨node, hn, h0, h1⟩ := h
  exact ⟨node, by rw [List.get?_set_ne _ _ (fun he => hne he.symm)]; exact hn, h0, h1⟩

theorem dangling_set_rev {A : List NFANode} {d : Nat} {nd : NFANode} {v : Nat}
    (hne : v ≠ d) (h : dangling (A.set d nd) v) : dangling A v := by
  obtain ⟨node, hn, h0, h1⟩ := h
  rw [List.get?_set_ne _ _ (fun he => hne he.symm)] at hn
  exact ⟨node, hn, h0, h1⟩

/-- The dangling-exit invariant of one stack fragment. -/
def frag_inv (A : List NFANode) (fr : NFAFragment) : Prop :=
  fr.start < A.length ∧ fr.finish < A.length ∧ dangling A fr.finish ∧
  reach A fr.start fr.finish ∧
  ∀ v, reach A fr.start v → dangling A v → v = fr.finish

/-- The invariant of get_nfa's whole state: pointers stay in the arena, the
exits of the stacked fragments are pairwise distinct, and every stacked
fragment satisfies the dangling-exit invariant. -/
def nfa_inv (st : NfaState) : Prop :=
  closed_arena st.arena ∧ (st.stack.map NFAFragment.finish).Nodup ∧
  ∀ fr ∈ st.stack, frag_inv st.arena fr

theorem frag_inv_append {A ext : List NFANode} {fr : NFAFragment}
    (hc : closed_arena A) (hfr : frag_inv A fr) : frag_inv (A ++ ext) fr := by
  obtain ⟨h1, h2, h3, h4, h5⟩ := hfr
  refine ⟨by rw [List.length_append]; omega, by rw [List.length_append]; omega,
    dangling_append h3, reach_append h4, ?_⟩
  intro v hv hd
  have hv2 := reach_append_rev hc h1 hv
  exact h5 v hv2 (dangling_append_rev (reach_lt hc h1 hv2) hd)

theorem frag_inv_set {A : List NFANode} {d : Nat} {nd : NFANode} {fr : NFAFragment}
    (hd : dangling A d) (hne : d ≠ fr.finish) (hfr : frag_inv A fr) :
    frag_inv (A.set d nd) fr := by
  obtain ⟨h1, h2, h3, h4, h5⟩ := hfr
  have hreach_rev : ∀ v, reach (A.set d nd) fr.start v → reach A fr.start v := by
    intro v hv
    refine reach_closed (fun v => reach A fr.start v) reach.refl ?_ v hv
    intro u w hu he
    rcases edge_to_set_elim he with ⟨-, he2⟩ | ⟨rfl, -⟩
    · exact reach.step hu he2
    · exact absurd (h5 u hu hd) hne
  refine ⟨by rw [List.length_set]; omega, by rw [List.length_set]; omega,
    dangling_set_of_ne (fun he => hne he.symm) h3, reach_set_mono hd h4, ?_⟩
  intro v hv hdv
  have hv2 := hreach_rev v hv
  have hvd : v ≠ d := by
    rintro rfl
    exact hne (h5 v hv2 hd)
  exact h5 v hv2 (dangling_set_rev hvd hdv)

theorem closed_arena_append {A ext : List NFANode} (hc : closed_arena A)
    (hext : ∀ node ∈ ext, (∀ v, node.n0 = some v → v < A.length + ext.length) ∧
      (∀ v, node.n1 = some v → v < A.length + ext.length)) :
    closed_arena (A ++ ext) := by
  intro node hmem
  rw [List.length_append]
  rcases List.mem_append.mp hmem with h | h
  · obtain ⟨c0, c1⟩ := hc node h
    exact ⟨fun v hv => by have := c0 v hv; omega, fun v hv => by have := c1 v hv; omega⟩
  · exact hext node h

theorem closed_arena_set {A : List NFANode} {d : Nat} {nd : NFANode}
    (hc : closed_arena A)
    (hnd : (∀ v, nd.n0 = some v → v < A.length) ∧
      (∀ v, nd.n1 = some v → v < A.length)) :
    closed_arena (A.set d nd) := by
  intro node hmem
  rw [List.length_set]
  rcases List.mem_or_eq_of_mem_set hmem with h | h
  · exact hc node h
  · subst h
    exact hnd

theorem get2_left {A : List NFANode} {p q : NFANode} :
    (A ++ [p, q]).get? A.length = some p := by
  rw [List.get?_append_right (le_refl _)]
  simp

theorem get2_right {A : List NFANode} {p q : NFANode} :
    (A ++ [p, q]).get? (A.length + 1) = some q := by
  rw [List.get?_append_right (by omega)]
  have h : A.length + 1 - A.length = 1 := by omega
  rw [h]
  rfl

theorem edge_to_elim_at {A : List NFANode} {u v : Nat} {n : NFANode}
    (hget : A.get? u = some n) (h : edge_to A u v) :
    n.n0 = some v ∨ n.n1 = some v := by
  obtain ⟨m, hm, hv⟩ := h
  rw [hget] at hm
  injection hm with h2
  subst h2
  exact hv

theorem edge_to_of_get {A : List NFANode} {u v : Nat} {n : NFANode}
    (hget : A.get? u = some n) (hv : n.n0 = some v ∨ n.n1 = some v) :
    edge_to A u v := ⟨n, hget, hv⟩

theorem dangling_elim_at {A : List NFANode} {v : Nat} {n : NFANode}
    (hget : A.get? v = some n) (h : dangling A v) :
    n.n0 = none ∧ n.n1 = none := by
  obtain ⟨m, hm, h0, h1⟩ := h
  rw [hget] at hm
  injection hm with h2
  subst h2
  exact ⟨h0, h1⟩

theorem edge_to_append_rev {A B : List NFANode} {u v : Nat} (hu : u < A.length)
    (h : edge_to (A ++ B) u v) : edge_to A u v := by
  obtain ⟨n, hn, hv⟩ := h
  rw [List.get?_append hu] at hn
  exact ⟨n, hn, hv⟩

theorem len_app2 {A : List NFANode} {p q : NFANode} :
    (A ++ [p, q]).length = A.length + 2 := by
  rw [List.length_append]
  rfl

theorem nfa_case_symbol {A : List NFANode} {stack : List NFAFragment} {c : Char}
    (h : nfa_inv ⟨A, stack⟩) :
    nfa_inv ⟨A ++ [zero_node, ⟨some A.length, none, c, S_LAMBDA⟩],
      ⟨A.length + 1, A.length⟩ :: stack⟩ := by
  obtain ⟨hc, hnd, hfr⟩ := h
  have hqget : (A ++ [zero_node, (⟨some A.length, none, c, S_LAMBDA⟩ : NFANode)]).get?
      (A.length + 1) = some ⟨some A.length, none, c, S_LAMBDA⟩ := get2_right
  have hfget : (A ++ [zero_node, (⟨some A.length, none, c, S_LAMBDA⟩ : NFANode)]).get?
      A.length = some zero_node := get2_left
  refine ⟨?_, ?_, ?_⟩
  · refine closed_arena_append hc ?_
    intro node hmem
    rcases List.mem_cons.mp hmem with rfl | hmem
    · exact ⟨fun v hv => absurd hv (by simp [zero_node]),
        fun v hv => absurd hv (by simp [zero_node])⟩
    · rcases List.mem_singleton.mp hmem with rfl
      refine ⟨fun v hv => ?_, fun v hv => absurd hv (by simp)⟩
      injection hv with h2
      subst h2
      simp only [List.length_cons, List.length_nil]
      omega
  · refine List.Pairwise.cons ?_ hnd
    intro b hb heq
    rcases List.mem_map.mp hb with ⟨fr, hfr2, rfl⟩
    have h3 : fr.finish < A.length := (hfr fr hfr2).2.1
    have heq2 : A.length = fr.finish := heq
    omega
  · intro fr hfr2
    rcases List.mem_cons.mp hfr2 with rfl | hfr2
    · refine ⟨?_, ?_, ⟨zero_node, hfget, rfl, rfl⟩, ?_, ?_⟩
      · show A.length + 1 < _
        rw [len_app2]
        omega
      · show A.length < _
        rw [len_app2]
        omega
      · exact reach.step reach.refl (edge_to_of_get hqget (Or.inl rfl))
      · intro v hv hdv
        have hX : ∀ t, reach (A ++ [zero_node,
            (⟨some A.length, none, c, S_LAMBDA⟩ : NFANode)]) (A.length + 1) t →
            t = A.length + 1 ∨ t = A.length := by
          refine reach_closed _ (Or.inl rfl) ?_
          intro u w hu he
          rcases hu with rfl | rfl
          · rcases edge_to_elim_at hqget he with h2 | h2
            · injection h2 with h3
              exact Or.inr h3.symm
            · cases h2
          · rcases edge_to_elim_at hfget he with h2 | h2
            · exact absurd h2 (by simp [zero_node])
            · exact absurd h2 (by simp [zero_node])
        rcases hX v hv with rfl | rfl
        · obtain ⟨h0, -⟩ := dangling_elim_at hqget hdv
          cases h0
        · rfl
    · exact frag_inv_append hc (hfr fr hfr2)

theorem nfa_case_concat {A : List NFANode} {y x : NFAFragment}
    {rest : List NFAFragment} (h : nfa_inv ⟨A, y :: x :: rest⟩) :
    nfa_inv ⟨A.set x.finish ⟨some y.start, none, S_LAMBDA, S_LAMBDA⟩,
      ⟨x.start, y.finish⟩ :: rest⟩ := by
  obtain ⟨hc, hnd, hfr⟩ := h
  have hy : frag_inv A y := hfr y (List.mem_cons_self _ _)
  have hx : frag_inv A x := hfr x (List.mem_cons_of_mem _ (List.mem_cons_self _ _))
  have hyf_ne_xf : y.finish ≠ x.finish := by
    have h2 := List.pairwise_cons.mp hnd
    exact h2.1 x.finish (by simp)
  have hxf_notin : ∀ fr ∈ rest, x.finish ≠ fr.finish := by
    intro fr hfr2
    have h2 := List.pairwise_cons.mp (List.pairwise_cons.mp hnd).2
    exact h2.1 fr.finish (List.mem_map.mpr ⟨fr, hfr2, rfl⟩)
  have hset : (A.set x.finish ⟨some y.start, none, S_LAMBDA, S_LAMBDA⟩).get? x.finish
      = some ⟨some y.start, none, S_LAMBDA, S_LAMBDA⟩ :=
    List.get?_set_eq_of_lt _ hx.2.1
  have hreachX : ∀ t, reach (A.set x.finish
      ⟨some y.start, none, S_LAMBDA, S_LAMBDA⟩) x.start t →
      reach A x.start t ∨ reach A y.start t := by
    refine reach_closed _ (Or.inl reach.refl) ?_
    intro u w hu he
    rcases edge_to_set_elim he with ⟨-, he2⟩ | ⟨rfl, hw⟩
    · rcases hu with hu | hu
      · exact Or.inl (reach.step hu he2)
      · exact Or.inr (reach.step hu he2)
    · rcases hw with hw | hw
      · injection hw with h2
        exact Or.inr (h2 ▸ reach.refl)
      · cases hw
  refine ⟨?_, ?_, ?_⟩
  · refine closed_arena_set hc ⟨fun v hv => ?_, fun v hv => absurd hv (by simp)⟩
    injection hv with h2
    subst h2
    exact hy.1
  · refine List.Pairwise.cons ?_ (List.pairwise_cons.mp (List.pairwise_cons.mp hnd).2).2
    intro b hb
    exact (List.pairwise_cons.mp hnd).1 b (List.mem_cons_of_mem _ hb)
  · intro fr hfr2
    rcases List.mem_cons.mp hfr2 with rfl | hfr2
    · refine ⟨by rw [List.length_set]; exact hx.1,
        by rw [List.length_set]; exact hy.2.1,
        dangling_set_of_ne hyf_ne_xf hy.2.2.1, ?_, ?_⟩
      · have h1 : reach (A.set x.finish ⟨some y.start, none, S_LAMBDA, S_LAMBDA⟩)
            x.start x.finish := reach_set_mono hx.2.2.1 hx.2.2.2.1
        have h2 : reach (A.set x.finish ⟨some y.start, none, S_LAMBDA, S_LAMBDA⟩)
            y.start y.finish := reach_set_mono hx.2.2.1 hy.2.2.2.1
        exact reach_trans (reach.step h1 (edge_to_of_get hset (Or.inl rfl))) h2
      · intro v hv hdv
        have hvnxf : v ≠ x.finish := by
          rintro rfl
          obtain ⟨h0, -⟩ := dangling_elim_at hset hdv
          cases h0
        have hdv2 : dangling A v := dangling_set_rev hvnxf hdv
        rcases hreachX v hv with h2 | h2
        · exact absurd (hx.2.2.2.2 v h2 hdv2) hvnxf
        · exact hy.2.2.2.2 v h2 hdv2
    · exact frag_inv_set hx.2.2.1 (hxf_notin fr hfr2) (hfr fr
        (List.mem_cons_of_mem _ (List.mem_cons_of_mem _ hfr2)))
theorem nfa_case_union {A : List NFANode} {y x : NFAFragment}
    {rest : List NFAFragment} (h : nfa_inv ⟨A, y :: x :: rest⟩) :
    nfa_inv ⟨((A ++ [⟨some x.start, some y.start, S_LAMBDA, S_LAMBDA⟩, zero_node]).set
        x.finish ⟨some (A.length + 1), none, S_LAMBDA, S_LAMBDA⟩).set
        y.finish ⟨some (A.length + 1), none, S_LAMBDA, S_LAMBDA⟩,
      ⟨A.length, A.length + 1⟩ :: rest⟩ := by
  obtain ⟨hc, hnd, hfr⟩ := h
  have hy : frag_inv A y := hfr y (List.mem_cons_self _ _)
  have hx : frag_inv A x := hfr x (List.mem_cons_of_mem _ (List.mem_cons_self _ _))
  have hyx : y.finish ≠ x.finish := by
    have h2 := List.pairwise_cons.mp hnd
    exact h2.1 x.finish (by simp)
  have hxf_notin : ∀ fr ∈ rest, x.finish ≠ fr.finish := by
    intro fr hfr2
    have h2 := List.pairwise_cons.mp (List.pairwise_cons.mp hnd).2
    exact h2.1 fr.finish (List.mem_map.mpr ⟨fr, hfr2, rfl⟩)
  have hyf_notin : ∀ fr ∈ rest, y.finish ≠ fr.finish := by
    intro fr hfr2
    exact (List.pairwise_cons.mp hnd).1 fr.finish
      (by exact List.mem_map.mpr ⟨fr, List.mem_cons_of_mem _ hfr2, rfl⟩)
  have hrest_lt : ∀ fr ∈ rest, fr.finish < A.length := by
    intro fr hfr2
    exact (hfr fr (List.mem_cons_of_mem _ (List.mem_cons_of_mem _ hfr2))).2.1
  have hq_get : (((A ++ [⟨some x.start, some y.start, S_LAMBDA, S_LAMBDA⟩,
      zero_node]).set x.finish
      ⟨some (A.length + 1), none, S_LAMBDA, S_LAMBDA⟩).set y.finish
      ⟨some (A.length + 1), none, S_LAMBDA, S_LAMBDA⟩).get? A.length
      = some ⟨some x.start, some y.start, S_LAMBDA, S_LAMBDA⟩ := by
    rw [List.get?_set_ne _ _ (by have := hy.2.1; omega)]
    rw [List.get?_set_ne _ _ (by have := hx.2.1; omega)]
    exact get2_left
  have hf_get : (((A ++ [⟨some x.start, some y.start, S_LAMBDA, S_LAMBDA⟩,
      zero_node]).set x.finish
      ⟨some (A.length + 1), none, S_LAMBDA, S_LAMBDA⟩).set y.finish
      ⟨some (A.length + 1), none, S_LAMBDA, S_LAMBDA⟩).get? (A.length + 1)
      = some zero_node := by
    rw [List.get?_set_ne _ _ (by have := hy.2.1; omega)]
    rw [List.get?_set_ne _ _ (by have := hx.2.1; omega)]
    exact get2_right
  have hxf_get : (((A ++ [⟨some x.start, some y.start, S_LAMBDA, S_LAMBDA⟩,
      zero_node]).set x.finish
      ⟨some (A.length + 1), none, S_LAMBDA, S_LAMBDA⟩).set y.finish
      ⟨some (A.length + 1), none, S_LAMBDA, S_LAMBDA⟩).get? x.finish
      = some ⟨some (A.length + 1), none, S_LAMBDA, S_LAMBDA⟩ := by
    rw [List.get?_set_ne _ _ hyx]
    exact List.get?_set_eq_of_lt _ (by rw [len_app2]; have := hx.2.1; omega)
  have hyf_get : (((A ++ [⟨some x.start, some y.start, S_LAMBDA, S_LAMBDA⟩,
      zero_node]).set x.finish
      ⟨some (A.length + 1), none, S_LAMBDA, S_LAMBDA⟩).set y.finish
      ⟨some (A.length + 1), none, S_LAMBDA, S_LAMBDA⟩).get? y.finish
      = some ⟨some (A.length + 1), none, S_LAMBDA, S_LAMBDA⟩ :=
    List.get?_set_eq_of_lt _ (by rw [List.length_set, len_app2]; have := hy.2.1; omega)
  have hd1 : dangling (A ++ [⟨some x.start, some y.start, S_LAMBDA, S_LAMBDA⟩,
      zero_node]) x.finish := dangling_append hx.2.2.1
  have hd2 : dangling ((A ++ [⟨some x.start, some y.start, S_LAMBDA, S_LAMBDA⟩,
      zero_node]).set x.finish ⟨some (A.length + 1), none, S_LAMBDA, S_LAMBDA⟩)
      y.finish := dangling_set_of_ne hyx (dangling_append hy.2.2.1)
  have hstep : ∀ u w, edge_to (((A ++ [⟨some x.start, some y.start,
      S_LAMBDA, S_LAMBDA⟩, zero_node]).set x.finish
      ⟨some (A.length + 1), none, S_LAMBDA, S_LAMBDA⟩).set y.finish
      ⟨some (A.length + 1), none, S_LAMBDA, S_LAMBDA⟩) u w →
      u < A.length → edge_to A u w ∨ w = A.length + 1 := by
    intro u w he hult
    rcases edge_to_set_elim he with ⟨-, he2⟩ | ⟨rfl, hw⟩
    · rcases edge_to_set_elim he2 with ⟨-, he3⟩ | ⟨rfl, hw⟩
      · exact Or.inl (edge_to_append_rev hult he3)
      · rcases hw with hw | hw
        · injection hw with h2
          exact Or.inr h2.symm
        · cases hw
    · rcases hw with hw | hw
      · injection hw with h2
        exact Or.inr h2.symm
      · cases hw
  refine ⟨?_, ?_, ?_⟩
  · refine closed_arena_set (closed_arena_set (closed_arena_append hc ?_) ?_) ?_
    · intro node hmem
      rcases List.mem_cons.mp hmem with rfl | hmem
      · constructor
        · intro v hv
          injection hv with h2
          subst h2
          simp only [List.length_cons, List.length_nil]
          have := hx.1
          omega
        · intro v hv
          injection hv with h2
          subst h2
          simp only [List.length_cons, List.length_nil]
          have := hy.1
          omega
      · rcases List.mem_singleton.mp hmem with rfl
        exact ⟨fun v hv => absurd hv (by simp [zero_node]),
          fun v hv => absurd hv (by simp [zero_node])⟩
    · refine ⟨fun v hv => ?_, fun v hv => absurd hv (by simp)⟩
      injection hv with h2
      subst h2
      rw [len_app2]
      omega
    · refine ⟨fun v hv => ?_, fun v hv => absurd hv (by simp)⟩
      injection hv with h2
      subst h2
      rw [List.length_set, len_app2]
      omega
  · refine List.Pairwise.cons ?_
      (List.pairwise_cons.mp (List.pairwise_cons.mp hnd).2).2
    intro b hb heq
    rcases List.mem_map.mp hb with ⟨fr, hfr2, rfl⟩
    have h3 := hrest_lt fr hfr2
    have heq2 : A.length + 1 = fr.finish := heq
    omega
  · intro fr hfr2
    rcases List.mem_cons.mp hfr2 with rfl | hfr2
    · refine ⟨?_, ?_, ⟨zero_node, hf_get, rfl, rfl⟩, ?_, ?_⟩
      · show A.length < _
        rw [List.length_set, List.length_set, len_app2]
        omega
      · show A.length + 1 < _
        rw [List.length_set, List.length_set, len_app2]
        omega
      · have r1 := reach.step (reach.refl (A := ((A ++ [⟨some x.start,
          some y.start, S_LAMBDA, S_LAMBDA⟩, zero_node]).set x.finish
          ⟨some (A.length + 1), none, S_LAMBDA, S_LAMBDA⟩).set y.finish
          ⟨some (A.length + 1), none, S_LAMBDA, S_LAMBDA⟩) (s := A.length))
          (edge_to_of_get hq_get (Or.inl rfl))
        have r2 := reach_trans r1 (reach_set_mono hd2
          (reach_set_mono hd1 (reach_append hx.2.2.2.1)))
        exact reach.step r2 (edge_to_of_get hxf_get (Or.inl rfl))
      · have hX : ∀ t, reach (((A ++ [⟨some x.start, some y.start,
            S_LAMBDA, S_LAMBDA⟩, zero_node]).set x.finish
            ⟨some (A.length + 1), none, S_LAMBDA, S_LAMBDA⟩).set y.finish
            ⟨some (A.length + 1), none, S_LAMBDA, S_LAMBDA⟩) A.length t →
            t = A.length ∨ reach A x.start t ∨ reach A y.start t ∨
            t = A.length + 1 := by
          refine reach_closed _ (Or.inl rfl) ?_
          intro u w hu he
          rcases hu with rfl | hu | hu | rfl
          · rcases edge_to_elim_at hq_get he with h2 | h2
            · injection h2 with h3
              exact Or.inr (Or.inl (h3 ▸ reach.refl))
            · injection h2 with h3
              exact Or.inr (Or.inr (Or.inl (h3 ▸ reach.refl)))
          · rcases hstep u w he (reach_lt hc hx.1 hu) with he2 | rfl
            · exact Or.inr (Or.inl (reach.step hu he2))
            · exact Or.inr (Or.inr (Or.inr rfl))
          · rcases hstep u w he (reach_lt hc hy.1 hu) with he2 | rfl
            · exact Or.inr (Or.inr (Or.inl (reach.step hu he2)))
            · exact Or.inr (Or.inr (Or.inr rfl))
          · rcases edge_to_elim_at hf_get he with h2 | h2
            · exact absurd h2 (by simp [zero_node])
            · exact absurd h2 (by simp [zero_node])
        intro v hv hdv
        rcases hX v hv with rfl | h2 | h2 | rfl
        · obtain ⟨h0, -⟩ := dangling_elim_at hq_get hdv
          cases h0
        · exfalso
          have hvny : v ≠ y.finish := by
            rintro rfl
            obtain ⟨h0, -⟩ := dangling_elim_at hyf_get hdv
            cases h0
          have hvnx : v ≠ x.finish := by
            rintro rfl
            obtain ⟨h0, -⟩ := dangling_elim_at hxf_get hdv
            cases h0
          have hdv3 := dangling_set_rev hvnx (dangling_set_rev hvny hdv)
          have hdv4 := dangling_append_rev (reach_lt hc hx.1 h2) hdv3
          exact hvnx (hx.2.2.2.2 v h2 hdv4)
        · exfalso
          have hvny : v ≠ y.finish := by
            rintro rfl
            obtain ⟨h0, -⟩ := dangling_elim_at hyf_get hdv
            cases h0
          have hvnx : v ≠ x.finish := by
            rintro rfl
            obtain ⟨h0, -⟩ := dangling_elim_at hxf_get hdv
            cases h0
          have hdv3 := dangling_set_rev hvnx (dangling_set_rev hvny hdv)
          have hdv4 := dangling_append_rev (reach_lt hc hy.1 h2) hdv3
          exact hvny (hy.2.2.2.2 v h2 hdv4)
        · rfl
    · refine frag_inv_set hd2 (hyf_notin fr hfr2) ?_
      refine frag_inv_set hd1 (hxf_notin fr hfr2) ?_
      exact frag_inv_append hc (hfr fr
        (List.mem_cons_of_mem _ (List.mem_cons_of_mem _ hfr2)))
theorem nfa_case_star {A : List NFANode} {x : NFAFragment}
    {rest : List NFAFragment} {qn snd : NFANode} (h : nfa_inv ⟨A, x :: rest⟩)
    (hqn0 : qn.n0 = some x.start)
    (hqn1 : qn.n1 = some A.length ∨ qn.n1 = none)
    (hsnd : ∀ v, snd.n0 = some v ∨ snd.n1 = some v →
      v = x.start ∨ v = A.length)
    (hsnd0 : snd.n0 ≠ none)
    (hrf : reach ((A ++ [zero_node, qn]).set x.finish snd)
      (A.length + 1) A.length) :
    nfa_inv ⟨(A ++ [zero_node, qn]).set x.finish snd,
      ⟨A.length + 1, A.length⟩ :: rest⟩ := by
  obtain ⟨hc, hnd, hfr⟩ := h
  have hx : frag_inv A x := hfr x (List.mem_cons_self _ _)
  have hxf_notin : ∀ fr ∈ rest, x.finish ≠ fr.finish := by
    intro fr hfr2
    exact (List.pairwise_cons.mp hnd).1 fr.finish
      (List.mem_map.mpr ⟨fr, hfr2, rfl⟩)
  have hrest_lt : ∀ fr ∈ rest, fr.finish < A.length := by
    intro fr hfr2
    exact (hfr fr (List.mem_cons_of_mem _ hfr2)).2.1
  have hq_get : ((A ++ [zero_node, qn]).set x.finish snd).get? (A.length + 1)
      = some qn := by
    rw [List.get?_set_ne _ _ (by have := hx.2.1; omega)]
    exact get2_right
  have hf_get : ((A ++ [zero_node, qn]).set x.finish snd).get? A.length
      = some zero_node := by
    rw [List.get?_set_ne _ _ (by have := hx.2.1; omega)]
    exact get2_left
  have hxf_get : ((A ++ [zero_node, qn]).set x.finish snd).get? x.finish
      = some snd :=
    List.get?_set_eq_of_lt _ (by rw [len_app2]; have := hx.2.1; omega)
  have hd1 : dangling (A ++ [zero_node, qn]) x.finish :=
    dangling_append hx.2.2.1
  refine ⟨?_, ?_, ?_⟩
  · refine closed_arena_set (closed_arena_append hc ?_) ?_
    · intro node hmem
      rcases List.mem_cons.mp hmem with rfl | hmem
      · exact ⟨fun v hv => absurd hv (by simp [zero_node]),
          fun v hv => absurd hv (by simp [zero_node])⟩
      · rcases List.mem_singleton.mp hmem with rfl
        constructor
        · intro v hv
          rw [hqn0] at hv
          injection hv with h2
          subst h2
          simp only [List.length_cons, List.length_nil]
          have := hx.1
          omega
        · intro v hv
          rcases hqn1 with h2 | h2 <;> rw [h2] at hv
          · injection hv with h3
            subst h3
            simp only [List.length_cons, List.length_nil]
            omega
          · cases hv
    · constructor
      · intro v hv
        rcases hsnd v (Or.inl hv) with rfl | rfl
        · rw [len_app2]
          have := hx.1
          omega
        · rw [len_app2]
          omega
      · intro v hv
        rcases hsnd v (Or.inr hv) with rfl | rfl
        · rw [len_app2]
          have := hx.1
          omega
        · rw [len_app2]
          omega
  · refine List.Pairwise.cons ?_ (List.pairwise_cons.mp hnd).2
    intro b hb heq
    rcases List.mem_map.mp hb with ⟨fr, hfr2, rfl⟩
    have h3 := hrest_lt fr hfr2
    have heq2 : A.length = fr.finish := heq
    omega
  · intro fr hfr2
    rcases List.mem_cons.mp hfr2 with rfl | hfr2
    · refine ⟨?_, ?_, ⟨zero_node, hf_get, rfl, rfl⟩, hrf, ?_⟩
      · show A.length + 1 < _
        rw [List.length_set, len_app2]
        omega
      · show A.length < _
        rw [List.length_set, len_app2]
        omega
      · have hX : ∀ t, reach ((A ++ [zero_node, qn]).set x.finish snd)
            (A.length + 1) t →
            t = A.length + 1 ∨ reach A x.start t ∨ t = A.length := by
          refine reach_closed _ (Or.inl rfl) ?_
          intro u w hu he
          rcases hu with rfl | hu | rfl
          · rcases edge_to_elim_at hq_get he with h2 | h2
            · rw [hqn0] at h2
              injection h2 with h3
              exact Or.inr (Or.inl (h3 ▸ reach.refl))
            · rcases hqn1 with h4 | h4 <;> rw [h4] at h2
              · injection h2 with h3
                exact Or.inr (Or.inr h3.symm)
              · cases h2
          · rcases edge_to_set_elim he with ⟨-, he2⟩ | ⟨rfl, hw⟩
            · have he3 := edge_to_append_rev (reach_lt hc hx.1 hu) he2
              exact Or.inr (Or.inl (reach.step hu he3))
            · rcases hsnd w hw with rfl | rfl
              · exact Or.inr (Or.inl reach.refl)
              · exact Or.inr (Or.inr rfl)
          · rcases edge_to_elim_at hf_get he with h2 | h2
            · exact absurd h2 (by simp [zero_node])
            · exact absurd h2 (by simp [zero_node])
        intro v hv hdv
        rcases hX v hv with rfl | h2 | rfl
        · obtain ⟨h0, -⟩ := dangling_elim_at hq_get hdv
          rw [hqn0] at h0
          cases h0
        · exfalso
          have hvnx : v ≠ x.finish := by
            rintro rfl
            obtain ⟨h0, -⟩ := dangling_elim_at hxf_get hdv
            exact hsnd0 h0
          have hdv3 := dangling_set_rev hvnx hdv
          have hdv4 := dangling_append_rev (reach_lt hc hx.1 h2) hdv3
          exact hvnx (hx.2.2.2.2 v h2 hdv4)
        · rfl
    · exact frag_inv_set hd1 (hxf_notin fr hfr2)
        (frag_inv_append hc (hfr fr (List.mem_cons_of_mem _ hfr2)))

theorem nfa_case_kleene {A : List NFANode} {x : NFAFragment}
    {rest : List NFAFragment} (h : nfa_inv ⟨A, x :: rest⟩) :
    nfa_inv ⟨(A ++ [zero_node, ⟨some x.start, some A.length, S_LAMBDA,
        S_LAMBDA⟩]).set x.finish
        ⟨some x.start, some A.length, S_LAMBDA, S_LAMBDA⟩,
      ⟨A.length + 1, A.length⟩ :: rest⟩ := by
  refine nfa_case_star h rfl (Or.inl rfl) ?_ (by simp) ?_
  · intro v hv
    rcases hv with hv | hv <;> injection hv with h2 <;> subst h2
    · exact Or.inl rfl
    · exact Or.inr rfl
  · have hx : frag_inv A x :=
      h.2.2 x (List.mem_cons_self _ _)
    have hq_get : ((A ++ [zero_node, (⟨some x.start, some A.length, S_LAMBDA,
        S_LAMBDA⟩ : NFANode)]).set x.finish
        ⟨some x.start, some A.length, S_LAMBDA, S_LAMBDA⟩).get? (A.length + 1)
        = some ⟨some x.start, some A.length, S_LAMBDA, S_LAMBDA⟩ := by
      rw [List.get?_set_ne _ _ (by have := hx.2.1; omega)]
      exact get2_right
    exact reach.step reach.refl (edge_to_of_get hq_get (Or.inr rfl))

theorem nfa_case_plus {A : List NFANode} {x : NFAFragment}
    {rest : List NFAFragment} (h : nfa_inv ⟨A, x :: rest⟩) :
    nfa_inv ⟨(A ++ [zero_node, ⟨some x.start, none, S_LAMBDA,
        S_LAMBDA⟩]).set x.finish
        ⟨some x.start, some A.length, S_LAMBDA, S_LAMBDA⟩,
      ⟨A.length + 1, A.length⟩ :: rest⟩ := by
  refine nfa_case_star h rfl (Or.inr rfl) ?_ (by simp) ?_
  · intro v hv
    rcases hv with hv | hv <;> injection hv with h2 <;> subst h2
    · exact Or.inl rfl
    · exact Or.inr rfl
  · have hx : frag_inv A x :=
      h.2.2 x (List.mem_cons_self _ _)
    have hq_get : ((A ++ [zero_node, (⟨some x.start, none, S_LAMBDA,
        S_LAMBDA⟩ : NFANode)]).set x.finish
        ⟨some x.start, some A.length, S_LAMBDA, S_LAMBDA⟩).get? (A.length + 1)
        = some ⟨some x.start, none, S_LAMBDA, S_LAMBDA⟩ := by
      rw [List.get?_set_ne _ _ (by have := hx.2.1; omega)]
      exact get2_right
    have hxf_get : ((A ++ [zero_node, (⟨some x.start, none, S_LAMBDA,
        S_LAMBDA⟩ : NFANode)]).set x.finish
        ⟨some x.start, some A.length, S_LAMBDA, S_LAMBDA⟩).get? x.finish
        = some ⟨some x.start, some A.length, S_LAMBDA, S_LAMBDA⟩ :=
      List.get?_set_eq_of_lt _ (by rw [len_app2]; have := hx.2.1; omega)
    have hd1 : dangling (A ++ [zero_node, (⟨some x.start, none, S_LAMBDA,
        S_LAMBDA⟩ : NFANode)]) x.finish := dangling_append hx.2.2.1
    have r1 := reach.step (reach.refl (A := (A ++ [zero_node, (⟨some x.start,
        none, S_LAMBDA, S_LAMBDA⟩ : NFANode)]).set x.finish
        ⟨some x.start, some A.length, S_LAMBDA, S_LAMBDA⟩)
        (s := A.length + 1)) (edge_to_of_get hq_get (Or.inl rfl))
    have r2 := reach_trans r1 (reach_set_mono hd1 (reach_append hx.2.2.2.1))
    exact reach.step r2 (edge_to_of_get hxf_get (Or.inr rfl))

theorem nfa_case_opt {A : List NFANode} {x : NFAFragment}
    {rest : List NFAFragment} (h : nfa_inv ⟨A, x :: rest⟩) :
    nfa_inv ⟨(A ++ [zero_node, ⟨some x.start, some A.length, S_LAMBDA,
        S_LAMBDA⟩]).set x.finish
        ⟨some A.length, none, S_LAMBDA, S_LAMBDA⟩,
      ⟨A.length + 1, A.length⟩ :: rest⟩ := by
  refine nfa_case_star h rfl (Or.inl rfl) ?_ (by simp) ?_
  · intro v hv
    rcases hv with hv | hv
    · injection hv with h2
      subst h2
      exact Or.inr rfl
    · cases hv
  · have hx : frag_inv A x :=
      h.2.2 x (List.mem_cons_self _ _)
    have hq_get : ((A ++ [zero_node, (⟨some x.start, some A.length, S_LAMBDA,
        S_LAMBDA⟩ : NFANode)]).set x.finish
        ⟨some A.length, none, S_LAMBDA, S_LAMBDA⟩).get? (A.length + 1)
        = some ⟨some x.start, some A.length, S_LAMBDA, S_LAMBDA⟩ := by
      rw [List.get?_set_ne _ _ (by have := hx.2.1; omega)]
      exact get2_right
    exact reach.step reach.refl (edge_to_of_get hq_get (Or.inr rfl))
theorem nfa_step_inv {st st2 : NfaState} {c : Char} (h : nfa_inv st)
    (hs : nfa_step st c = some st2) : nfa_inv st2 := by
  obtain ⟨A, stack⟩ := st
  unfold nfa_step at hs
  split at hs
  · rcases stack with _ | ⟨y, stack⟩
    · exact Option.noConfusion hs
    rcases stack with _ | ⟨x, rest⟩
    · exact Option.noConfusion hs
    replace hs : (if c = OP_CONCAT then
        some (⟨A.set x.finish ⟨some y.start, none, S_LAMBDA, S_LAMBDA⟩,
          ⟨x.start, y.finish⟩ :: rest⟩ : NfaState)
      else
        some ⟨((A ++ [⟨some x.start, some y.start, S_LAMBDA, S_LAMBDA⟩,
            zero_node]).set x.finish ⟨some (A.length + 1), none, S_LAMBDA,
            S_LAMBDA⟩).set y.finish ⟨some (A.length + 1), none, S_LAMBDA,
            S_LAMBDA⟩, ⟨A.length, A.length + 1⟩ :: rest⟩) = some st2 := hs
    split at hs
    · injection hs with h2
      subst h2
      exact nfa_case_concat h
    · injection hs with h2
      subst h2
      exact nfa_case_union h
  · split at hs
    · rcases stack with _ | ⟨x, rest⟩
      · exact Option.noConfusion hs
      replace hs : (if c = OP_KLEENE then
          some (⟨(A ++ [zero_node, ⟨some x.start, some A.length, S_LAMBDA,
            S_LAMBDA⟩]).set x.finish ⟨some x.start, some A.length, S_LAMBDA,
            S_LAMBDA⟩, ⟨A.length + 1, A.length⟩ :: rest⟩ : NfaState)
        else if c = OP_PLUS then
          some (⟨(A ++ [zero_node, ⟨some x.start, none, S_LAMBDA,
            S_LAMBDA⟩]).set x.finish ⟨some x.start, some A.length, S_LAMBDA,
            S_LAMBDA⟩, ⟨A.length + 1, A.length⟩ :: rest⟩ : NfaState)
        else
          some (⟨(A ++ [zero_node, ⟨some x.start, some A.length, S_LAMBDA,
            S_LAMBDA⟩]).set x.finish ⟨some A.length, none, S_LAMBDA,
            S_LAMBDA⟩, ⟨A.length + 1, A.length⟩ :: rest⟩ : NfaState))
          = some st2 := hs
      split at hs
      · injection hs with h2
        subst h2
        exact nfa_case_kleene h
      · split at hs
        · injection hs with h2
          subst h2
          exact nfa_case_plus h
        · injection hs with h2
          subst h2
          exact nfa_case_opt h
    · injection hs with h2
      subst h2
      exact nfa_case_symbol h

theorem run_nfa_aux_inv : ∀ (p : List Char) (st st2 : NfaState),
    nfa_inv st → run_nfa_aux st p = some st2 → nfa_inv st2 := by
  intro p
  induction p with
  | nil =>
    intro st st2 h hs
    injection hs with h2
    subst h2
    exact h
  | cons c cs ih =>
    intro st st2 h hs
    rcases hm : nfa_step st c with _ | st3
    · rw [run_nfa_aux, hm] at hs
      cases hs
    · rw [run_nfa_aux, hm] at hs
      exact ih st3 st2 (nfa_step_inv h hm) hs

theorem nfa_inv_init : nfa_inv ⟨[], []⟩ := by
  refine ⟨?_, List.Pairwise.nil, ?_⟩
  · intro node hmem
    cases hmem
  · intro fr hfr
    cases hfr

/-- Any successful get_nfa yields a closed arena and a top fragment with the
dangling-exit invariant, whose entry is the returned root. -/
theorem get_nfa_frag {p : List Char} {A : List NFANode} {root : Nat}
    (h : get_nfa p = some (A, root)) :
    closed_arena A ∧ ∃ top : NFAFragment, top.start = root ∧ frag_inv A top := by
  unfold get_nfa at h
  rcases hr : run_nfa p with _ | st
  · rw [hr] at h
    cases h
  · rw [hr] at h
    rw [Option.some_bind] at h
    have hinv : nfa_inv st := run_nfa_aux_inv p ⟨[], []⟩ st nfa_inv_init hr
    rcases hst : st.stack with _ | ⟨top, rest⟩
    · rw [hst] at h
      exact Option.noConfusion h
    · rw [hst] at h
      injection h with h2
      have hA : st.arena = A := congrArg Prod.fst h2
      have hroot : top.start = root := congrArg Prod.snd h2
      subst hA
      refine ⟨hinv.1, top, hroot, ?_⟩
      exact hinv.2.2 top (by rw [hst]; exact List.mem_cons_self _ _)
/-- A node index already marked visited in to_graph_helper's traversal state. -/
def vis (st : TGState) (i : Nat) : Prop := st.visited.get? i = some true

/-- Number of unvisited entries of the traversal state. -/
def uc (st : TGState) : Nat := st.visited.countP (fun b => !b)

/-- Reachability along arena pointers stepping only from nodes outside V:
the set of nodes a depth-first traversal started at s still has to reach
when the nodes of V are already visited. -/
inductive reach_avoid (A : List NFANode) (V : Nat → Prop) (s : Nat) : Nat → Prop where
  | refl : reach_avoid A V s s
  | step {u w : Nat} : reach_avoid A V s u → ¬ V u → edge_to A u w →
      reach_avoid A V s w

theorem ra_no_steps {A : List NFANode} {V : Nat → Prop} {s t : Nat} (hs : V s)
    (h : reach_avoid A V s t) : t = s := by
  induction h with
  | refl => rfl
  | step h1 h2 h3 ih =>
    exact absurd (show V _ by rw [ih]; exact hs) h2

theorem ra_mono_absorb {A : List NFANode} {V V2 : Nat → Prop} {s : Nat}
    (hsub : ∀ i, V i → V2 i)
    (habs : ∀ i, V2 i → V i ∨ reach_avoid A V s i)
    {u0 t : Nat} (h0 : reach_avoid A V s u0)
    (h : reach_avoid A V2 u0 t) : reach_avoid A V s t := by
  induction h with
  | refl => exact h0
  | step h1 h2 h3 ih =>
    exact reach_avoid.step ih (fun hv => h2 (hsub _ hv)) h3

theorem ra_reach {A : List NFANode} {V : Nat → Prop} (hV : ∀ i, ¬ V i)
    {s t : Nat} : reach_avoid A V s t ↔ reach A s t := by
  constructor
  · intro h
    induction h with
    | refl => exact reach.refl
    | step h1 h2 h3 ih => exact reach.step ih h3
  · intro h
    induction h with
    | refl => exact reach_avoid.refl
    | step h1 h2 ih => exact reach_avoid.step ih (hV _) h2

theorem get?_lt_of_some {α : Type} {l : List α} {i : Nat} {a : α}
    (h : l.get? i = some a) : i < l.length := by
  by_cases hi : i < l.length
  · exact hi
  · rw [List.get?_eq_none.mpr (by omega)] at h
    cases h

theorem get?_total {α : Type} {l : List α} {i : Nat} (h : i < l.length) :
    ∃ a, l.get? i = some a := by
  cases hx : l.get? i with
  | none =>
    have := List.get?_eq_none.mp hx
    omega
  | some a => exact ⟨a, rfl⟩

theorem countP_eq_one_of_unique {α : Type} (p : α → Bool) :
    ∀ (l : List α) (s : Nat), s < l.length →
    (∀ id f, l.get? id = some f → (p f = true ↔ id = s)) →
    l.countP p = 1 := by
  intro l
  induction l with
  | nil =>
    intro s hs _
    simp at hs
  | cons a l ih =>
    intro s hs hu
    rcases s with _ | s
    · have hpa : p a = true := (hu 0 a rfl).mpr rfl
      have hl0 : l.countP p = 0 := by
        rw [List.countP_eq_zero]
        intro b hb
        obtain ⟨n, hn⟩ := List.get?_of_mem hb
        intro hpb
        have h2 := (hu (n + 1) b hn).mp hpb
        omega
      rw [List.countP_cons, hl0, hpa]
      rfl
    · have hpa : p a = false := by
        rcases h : p a with _ | _
        · rfl
        · have h2 := (hu 0 a rfl).mp h
          omega
      have hs' : s < l.length := by
        simp only [List.length_cons] at hs
        omega
      have htl : l.countP p = 1 := by
        refine ih s hs' ?_
        intro id f hf
        have h2 := hu (id + 1) f hf
        constructor
        · intro hp
          have := h2.mp hp
          omega
        · intro hid
          exact h2.mpr (by omega)
      rw [List.countP_cons, htl, hpa]
      rfl

theorem cnt_set_true : ∀ (l : List Bool) (i : Nat), l.get? i = some false →
    (l.set i true).countP (fun b => !b) + 1 = l.countP (fun b => !b) := by
  intro l
  induction l with
  | nil =>
    intro i h
    cases h
  | cons b l ih =>
    intro i h
    rcases i with _ | i
    · injection h with h2
      subst h2
      show (true :: l).countP (fun b => !b) + 1 = (false :: l).countP (fun b => !b)
      rw [List.countP_cons, List.countP_cons]
      simp
    · have h2 := ih i h
      show (b :: l.set i true).countP (fun b => !b) + 1 = (b :: l).countP (fun b => !b)
      rw [List.countP_cons, List.countP_cons]
      omega

theorem cnt_mono : ∀ (l1 l2 : List Bool), l1.length = l2.length →
    (∀ i, l1.get? i = some true → l2.get? i = some true) →
    l2.countP (fun b => !b) ≤ l1.countP (fun b => !b) := by
  intro l1
  induction l1 with
  | nil =>
    intro l2 hl _
    rw [List.length_nil] at hl
    rw [List.length_eq_zero.mp hl.symm]
  | cons b1 l1 ih =>
    intro l2 hl h
    rcases l2 with _ | ⟨b2, l2⟩
    · simp at hl
    · have htail := ih l2 (by simp only [List.length_cons] at hl; omega)
        (fun i hi => h (i + 1) hi)
      rw [List.countP_cons, List.countP_cons]
      by_cases hb1 : b1 = true
      · have hb2 : b2 = true :=
          Option.some.inj (h 0 (show some b1 = some true by rw [hb1]))
        rw [hb1, hb2]
        simpa using htail
      · have hb1' : b1 = false := by
          revert hb1
          rcases b1 <;> simp
        rw [hb1']
        have hup : (if (!b2) = true then (1 : Nat) else 0) ≤ 1 := by
          split <;> omega
        have hone : (if (!false) = true then (1 : Nat) else 0) = 1 := rfl
        omega

theorem cnt_replicate : ∀ n : Nat,
    (List.replicate n false).countP (fun b => !b) = n := by
  intro n
  induction n with
  | zero => rfl
  | succ n ih =>
    rw [List.replicate_succ, List.countP_cons, ih]
    rfl

theorem repl_get {α : Type} {a : α} : ∀ (n i : Nat) (x : α),
    (List.replicate n a).get? i = some x → x = a := by
  intro n
  induction n with
  | zero =>
    intro i x h
    cases h
  | succ n ih =>
    intro i x h
    rcases i with _ | i
    · rw [List.replicate_succ] at h
      injection h with h2
      exact h2.symm
    · rw [List.replicate_succ] at h
      exact ih i x h

theorem repl_get_lt {α : Type} {a : α} : ∀ (n i : Nat), i < n →
    (List.replicate n a).get? i = some a := by
  intro n
  induction n with
  | zero =>
    intro i h
    omega
  | succ n ih =>
    intro i h
    rcases i with _ | i
    · rw [List.replicate_succ]
      rfl
    · rw [List.replicate_succ]
      exact ih i (by omega)

theorem dangling_decide {A : List NFANode} {src : Nat} {node : NFANode}
    (h : A.get? src = some node) :
    decide (dangling A src) = (decide (node.n0 = none) && decide (node.n1 = none)) := by
  by_cases h0 : node.n0 = none <;> by_cases h1 : node.n1 = none
  · have hd : dangling A src := ⟨node, h, h0, h1⟩
    simp [hd, h0, h1]
  · have hd : ¬ dangling A src := fun hd => h1 (dangling_elim_at h hd).2
    simp [hd, h1]
  · have hd : ¬ dangling A src := fun hd => h0 (dangling_elim_at h hd).1
    simp [hd, h0]
  · have hd : ¬ dangling A src := fun hd => h0 (dangling_elim_at h hd).1
    simp [hd, h0]

theorem flag_or_start_get {flags : List Flags} {i : Nat} {f : Flags}
    (h : flags.get? i = some f) :
    flag_or_start flags i = flags.set i ⟨f.visited, true, f.final⟩ := by
  unfold flag_or_start
  rw [h]

theorem flag_or_final_get {flags : List Flags} {i : Nat} {b : Bool} {f : Flags}
    (h : flags.get? i = some f) :
    flag_or_final flags i b = flags.set i ⟨f.visited, f.start, f.final || b⟩ := by
  unfold flag_or_final
  rw [h]
/-- Invariant of to_graph_helper's traversal state: side vectors sized to the
arena, one adj row and flags entry per assigned id, ids a bijection between
visited nodes and created graph states, FINAL recorded exactly for dangling
nodes, and START recorded exactly for the recorded start id. -/
structure tg_inv (A : List NFANode) (st : TGState) : Prop where
  vlen : st.visited.length = A.length
  ilen : st.ids.length = A.length
  aflen : st.adj.length = st.flags.length
  id_vis : ∀ i id, st.ids.get? i = some (some id) → st.visited.get? i = some true
  id_lt : ∀ i id, st.ids.get? i = some (some id) → id < st.flags.length
  vis_id : ∀ i, st.visited.get? i = some true → ∃ id, st.ids.get? i = some (some id)
  surj : ∀ id, id < st.flags.length → ∃ i, st.ids.get? i = some (some id)
  inj : ∀ i j id, st.ids.get? i = some (some id) →
    st.ids.get? j = some (some id) → i = j
  fin_ok : ∀ i id f, st.ids.get? i = some (some id) → st.flags.get? id = some f →
    f.final = decide (dangling A i)
  start_none : st.start = none → ∀ f ∈ st.flags, f.start = false
  start_some : ∀ s, st.start = some s → s < st.flags.length ∧
    ∀ id f, st.flags.get? id = some f → (f.start = true ↔ id = s)

theorem tg_create_core {A : List NFANode} {st : TGState} {src : Nat}
    {node : NFANode} {flags3 : List Flags} {sb : Bool} {newStart : Option Nat}
    (hinv : tg_inv A st) (hvs : st.visited.get? src = some false)
    (hnode : A.get? src = some node)
    (hlen3 : flags3.length = st.flags.length + 1)
    (hget_id : flags3.get? st.adj.length =
      some ⟨false, sb, decide (node.n0 = none) && decide (node.n1 = none)⟩)
    (hget_ne : ∀ j, j ≠ st.adj.length → flags3.get? j = st.flags.get? j)
    (hsn : newStart = none → ∀ f ∈ flags3, f.start = false)
    (hss : ∀ s, newStart = some s → s < flags3.length ∧
      ∀ id f, flags3.get? id = some f → (f.start = true ↔ id = s)) :
    tg_inv A ⟨st.visited.set src true, st.ids.set src (some st.adj.length),
      st.adj ++ [[]], flags3, newStart⟩ := by
  have hn := hinv.aflen
  have hsrcv : src < st.visited.length := get?_lt_of_some hvs
  have hsrci : src < st.ids.length := by
    rw [hinv.ilen, ← hinv.vlen]
    exact hsrcv
  refine ⟨?_, ?_, ?_, ?_, ?_, ?_, ?_, ?_, ?_, hsn, hss⟩
  · rw [List.length_set]
    exact hinv.vlen
  · rw [List.length_set]
    exact hinv.ilen
  · rw [List.length_append, hlen3, hn]
    rfl
  · intro i id hi
    by_cases his : i = src
    · subst his
      exact List.get?_set_eq_of_lt _ hsrcv
    · rw [List.get?_set_ne _ _ (fun he => his he.symm)] at hi
      rw [List.get?_set_ne _ _ (fun he => his he.symm)]
      exact hinv.id_vis i id hi
  · intro i id hi
    rw [hlen3]
    by_cases his : i = src
    · subst his
      rw [List.get?_set_eq_of_lt _ hsrci] at hi
      injection hi with hi
      injection hi with hi
      rw [← hi, hn]
      omega
    · rw [List.get?_set_ne _ _ (fun he => his he.symm)] at hi
      have := hinv.id_lt i id hi
      omega
  · intro i hi
    by_cases his : i = src
    · subst his
      exact ⟨st.adj.length, List.get?_set_eq_of_lt _ hsrci⟩
    · rw [List.get?_set_ne _ _ (fun he => his he.symm)] at hi
      obtain ⟨id, hid⟩ := hinv.vis_id i hi
      exact ⟨id, by rw [List.get?_set_ne _ _ (fun he => his he.symm)]; exact hid⟩
  · intro id hid
    rw [hlen3] at hid
    by_cases hide : id = st.flags.length
    · subst hide
      have h2 : (st.ids.set src (some st.adj.length)).get? src
          = some (some st.adj.length) := List.get?_set_eq_of_lt _ hsrci
      nth_rewrite 2 [hn] at h2
      exact ⟨src, h2⟩
    · obtain ⟨i, hi⟩ := hinv.surj id (by omega)
      have hisrc : i ≠ src := by
        rintro rfl
        have h2 := hinv.id_vis i id hi
        rw [hvs] at h2
        exact Bool.noConfusion (Option.some.inj h2)
      exact ⟨i, by rw [List.get?_set_ne _ _ (fun he => hisrc he.symm)]; exact hi⟩
  · intro i j id hi hj
    by_cases his : i = src <;> by_cases hjs : j = src
    · rw [his, hjs]
    · subst his
      rw [List.get?_set_eq_of_lt _ hsrci] at hi
      injection hi with hi
      injection hi with hi
      rw [List.get?_set_ne _ _ (fun he => hjs he.symm)] at hj
      have := hinv.id_lt j id hj
      omega
    · subst hjs
      rw [List.get?_set_eq_of_lt _ hsrci] at hj
      injection hj with hj
      injection hj with hj
      rw [List.get?_set_ne _ _ (fun he => his he.symm)] at hi
      have := hinv.id_lt i id hi
      omega
    · rw [List.get?_set_ne _ _ (fun he => his he.symm)] at hi
      rw [List.get?_set_ne _ _ (fun he => hjs he.symm)] at hj
      exact hinv.inj i j id hi hj
  · intro i id f hi hf
    by_cases his : i = src
    · subst his
      rw [List.get?_set_eq_of_lt _ hsrci] at hi
      injection hi with hi
      injection hi with hi
      rw [← hi] at hf
      rw [hget_id] at hf
      injection hf with hf
      rw [← hf]
      exact (dangling_decide hnode).symm
    · rw [List.get?_set_ne _ _ (fun he => his he.symm)] at hi
      have hlt := hinv.id_lt i id hi
      have hidne : id ≠ st.adj.length := by omega
      rw [hget_ne id hidne] at hf
      exact hinv.fin_ok i id f hi hf
theorem tg_create_none {A : List NFANode} {st : TGState} {src : Nat}
    {node : NFANode} (hinv : tg_inv A st)
    (hvs : st.visited.get? src = some false)
    (hnode : A.get? src = some node) (hstart : st.start = none) :
    tg_inv A ⟨st.visited.set src true, st.ids.set src (some st.adj.length),
      st.adj ++ [[]],
      flag_or_final (flag_or_start (st.flags ++ [(⟨false, false, false⟩ : Flags)])
        st.adj.length) st.adj.length
        (decide (node.n0 = none) && decide (node.n1 = none)),
      some st.adj.length⟩ := by
  have hn := hinv.aflen
  have hblen : (st.flags ++ [(⟨false, false, false⟩ : Flags)]).length
      = st.flags.length + 1 := by
    rw [List.length_append]
    rfl
  have hb_id : (st.flags ++ [(⟨false, false, false⟩ : Flags)]).get? st.adj.length
      = some ⟨false, false, false⟩ := by
    rw [hn]
    exact List.get?_concat_length _ _
  have hfs : flag_or_start (st.flags ++ [(⟨false, false, false⟩ : Flags)]) st.adj.length
      = (st.flags ++ [(⟨false, false, false⟩ : Flags)]).set st.adj.length
        ⟨false, true, false⟩ := flag_or_start_get hb_id
  have hfs_id : ((st.flags ++ [(⟨false, false, false⟩ : Flags)]).set
      st.adj.length ⟨false, true, false⟩).get? st.adj.length
      = some ⟨false, true, false⟩ :=
    List.get?_set_eq_of_lt _ (by rw [hblen, hn]; omega)
  have hff : flag_or_final ((st.flags ++ [(⟨false, false, false⟩ : Flags)]).set
      st.adj.length ⟨false, true, false⟩) st.adj.length
      (decide (node.n0 = none) && decide (node.n1 = none))
      = ((st.flags ++ [(⟨false, false, false⟩ : Flags)]).set st.adj.length
        ⟨false, true, false⟩).set st.adj.length
        ⟨false, true, false || (decide (node.n0 = none) && decide (node.n1 = none))⟩ :=
    flag_or_final_get hfs_id
  rw [hfs, hff, Bool.false_or]
  have hlen3 : (((st.flags ++ [(⟨false, false, false⟩ : Flags)]).set
      st.adj.length ⟨false, true, false⟩).set st.adj.length
      ⟨false, true, decide (node.n0 = none) && decide (node.n1 = none)⟩).length
      = st.flags.length + 1 := by
    rw [List.length_set, List.length_set, hblen]
  have hget_id : (((st.flags ++ [(⟨false, false, false⟩ : Flags)]).set
      st.adj.length ⟨false, true, false⟩).set st.adj.length
      ⟨false, true, decide (node.n0 = none) && decide (node.n1 = none)⟩).get?
      st.adj.length = some ⟨false, true,
        decide (node.n0 = none) && decide (node.n1 = none)⟩ :=
    List.get?_set_eq_of_lt _ (by rw [List.length_set, hblen, hn]; omega)
  have hget_ne : ∀ j, j ≠ st.adj.length →
      (((st.flags ++ [(⟨false, false, false⟩ : Flags)]).set
      st.adj.length ⟨false, true, false⟩).set st.adj.length
      ⟨false, true, decide (node.n0 = none) && decide (node.n1 = none)⟩).get? j
      = st.flags.get? j := by
    intro j hj
    rw [List.get?_set_ne _ _ (fun he => hj he.symm),
      List.get?_set_ne _ _ (fun he => hj he.symm)]
    by_cases hjl : j < st.flags.length
    · exact List.get?_append hjl
    · have hj2 : j ≠ st.flags.length := by
        rw [← hn]
        exact hj
      rw [List.get?_eq_none.mpr (by rw [hblen]; omega),
        List.get?_eq_none.mpr (by omega)]
  refine tg_create_core hinv hvs hnode hlen3 hget_id hget_ne ?_ ?_
  · intro h
    exact Option.noConfusion h
  · intro s hs
    injection hs with hs
    subst hs
    constructor
    · rw [hlen3, ← hn]
      omega
    · intro id f hf
      by_cases hid : id = st.adj.length
      · subst hid
        rw [hget_id] at hf
        injection hf with hf
        rw [← hf]
        simp
      · rw [hget_ne id hid] at hf
        have hfsf := hinv.start_none hstart f (List.get?_mem hf)
        rw [hfsf]
        simp [hid]

theorem tg_create_some {A : List NFANode} {st : TGState} {src : Nat}
    {node : NFANode} {s : Nat} (hinv : tg_inv A st)
    (hvs : st.visited.get? src = some false)
    (hnode : A.get? src = some node) (hstart : st.start = some s) :
    tg_inv A ⟨st.visited.set src true, st.ids.set src (some st.adj.length),
      st.adj ++ [[]],
      flag_or_final (st.flags ++ [(⟨false, false, false⟩ : Flags)]) st.adj.length
        (decide (node.n0 = none) && decide (node.n1 = none)),
      st.start⟩ := by
  have hn := hinv.aflen
  have hblen : (st.flags ++ [(⟨false, false, false⟩ : Flags)]).length
      = st.flags.length + 1 := by
    rw [List.length_append]
    rfl
  have hb_id : (st.flags ++ [(⟨false, false, false⟩ : Flags)]).get? st.adj.length
      = some ⟨false, false, false⟩ := by
    rw [hn]
    exact List.get?_concat_length _ _
  have hff : flag_or_final (st.flags ++ [(⟨false, false, false⟩ : Flags)]) st.adj.length
      (decide (node.n0 = none) && decide (node.n1 = none))
      = (st.flags ++ [(⟨false, false, false⟩ : Flags)]).set st.adj.length
        ⟨false, false, false || (decide (node.n0 = none) && decide (node.n1 = none))⟩ :=
    flag_or_final_get hb_id
  rw [hff, Bool.false_or]
  have hlen3 : ((st.flags ++ [(⟨false, false, false⟩ : Flags)]).set
      st.adj.length ⟨false, false,
        decide (node.n0 = none) && decide (node.n1 = none)⟩).length
      = st.flags.length + 1 := by
    rw [List.length_set, hblen]
  have hget_id : ((st.flags ++ [(⟨false, false, false⟩ : Flags)]).set
      st.adj.length ⟨false, false,
        decide (node.n0 = none) && decide (node.n1 = none)⟩).get? st.adj.length
      = some ⟨false, false, decide (node.n0 = none) && decide (node.n1 = none)⟩ :=
    List.get?_set_eq_of_lt _ (by rw [hblen, hn]; omega)
  have hget_ne : ∀ j, j ≠ st.adj.length →
      ((st.flags ++ [(⟨false, false, false⟩ : Flags)]).set
      st.adj.length ⟨false, false,
        decide (node.n0 = none) && decide (node.n1 = none)⟩).get? j
      = st.flags.get? j := by
    intro j hj
    rw [List.get?_set_ne _ _ (fun he => hj he.symm)]
    by_cases hjl : j < st.flags.length
    · exact List.get?_append hjl
    · have hj2 : j ≠ st.flags.length := by
        rw [← hn]
        exact hj
      rw [List.get?_eq_none.mpr (by rw [hblen]; omega),
        List.get?_eq_none.mpr (by omega)]
  refine tg_create_core hinv hvs hnode hlen3 hget_id hget_ne ?_ ?_
  · intro h
    rw [hstart] at h
    exact Option.noConfusion h
  · intro s2 hs2
    rw [hstart] at hs2
    injection hs2 with hs2
    subst hs2
    obtain ⟨hslt, huniq⟩ := hinv.start_some s hstart
    constructor
    · rw [hlen3]
      omega
    · intro id f hf
      by_cases hid : id = st.adj.length
      · subst hid
        rw [hget_id] at hf
        injection hf with hf
        rw [← hf]
        have : st.adj.length ≠ s := by omega
        simp [this]
      · rw [hget_ne id hid] at hf
        exact huniq id f hf
theorem tg_child_spec {A : List NFANode} {fuel : Nat}
    (hrec : ∀ (src : Nat) (st : TGState), src < A.length → tg_inv A st →
      uc st < fuel →
      ∃ st2, tg_helper A fuel src st = some st2 ∧ tg_inv A st2 ∧
        (∀ i, vis st2 i ↔ (vis st i ∨ reach_avoid A (vis st) src i)) ∧
        (∀ s, st.start = some s → st2.start = some s))
    {ref : Option Nat} {sym : Char} {src : Nat} {st : TGState}
    (hsrc_vis : vis st src) (hinv : tg_inv A st) (huc : uc st < fuel)
    (href : ∀ v, ref = some v → v < A.length) :
    ∃ st2, tg_child (tg_helper A fuel) ref sym src st = some st2 ∧
      tg_inv A st2 ∧
      (∀ i, vis st2 i ↔ (vis st i ∨ ∃ v, ref = some v ∧
        reach_avoid A (vis st) v i)) ∧
      (∀ s, st.start = some s → st2.start = some s) := by
  rcases ref with _ | v
  · refine ⟨st, rfl, hinv, ?_, fun s hs => hs⟩
    intro i
    constructor
    · exact Or.inl
    · rintro (h | ⟨v, hv, -⟩)
      · exact h
      · cases hv
  · obtain ⟨st4, heq4, hinv4, hchar4, hstart4⟩ :=
      hrec v st (href v rfl) hinv huc
    have hvis4src : vis st4 src := (hchar4 src).mpr (Or.inl hsrc_vis)
    obtain ⟨sid, hsid⟩ := hinv4.vis_id src hvis4src
    have hvis4v : vis st4 v := (hchar4 v).mpr (Or.inr reach_avoid.refl)
    obtain ⟨vid, hvid⟩ := hinv4.vis_id v hvis4v
    have hsidlt : sid < st4.adj.length := by
      rw [hinv4.aflen]
      exact hinv4.id_lt src sid hsid
    obtain ⟨lsid, hlsid⟩ := get?_total hsidlt
    refine ⟨⟨st4.visited, st4.ids, st4.adj.set sid (lsid ++ [⟨vid, sym⟩]),
      st4.flags, st4.start⟩, ?_, ?_, ?_, ?_⟩
    · show tg_child (tg_helper A fuel) (some v) sym src st = _
      simp only [tg_child]
      rw [heq4, Option.some_bind, hsid, hvid]
      show (match st4.adj.get? sid with
        | some lsid2 => some { st4 with
            adj := st4.adj.set sid (lsid2 ++ [(⟨vid, sym⟩ : Transition)]) }
        | none => none) = _
      rw [hlsid]
    · exact ⟨hinv4.vlen, hinv4.ilen,
        by rw [List.length_set]; exact hinv4.aflen,
        hinv4.id_vis, hinv4.id_lt, hinv4.vis_id, hinv4.surj, hinv4.inj,
        hinv4.fin_ok, hinv4.start_none, hinv4.start_some⟩
    · intro i
      constructor
      · intro h
        rcases (hchar4 i).mp h with h | h
        · exact Or.inl h
        · exact Or.inr ⟨v, rfl, h⟩
      · rintro (h | ⟨v2, hv2, hra⟩)
        · exact (hchar4 i).mpr (Or.inl h)
        · injection hv2 with hv2
          subst hv2
          exact (hchar4 i).mpr (Or.inr hra)
    · intro s hs
      exact hstart4 s hs
theorem tg_visit_children {A : List NFANode} (hc : closed_arena A) {fuel : Nat}
    (ih : ∀ (src : Nat) (st : TGState), src < A.length → tg_inv A st →
      uc st < fuel →
      ∃ st2, tg_helper A fuel src st = some st2 ∧ tg_inv A st2 ∧
        (∀ i, vis st2 i ↔ (vis st i ∨ reach_avoid A (vis st) src i)) ∧
        (∀ s, st.start = some s → st2.start = some s))
    {st st3 : TGState} {src : Nat} {node : NFANode}
    (hnode : A.get? src = some node) (hnV : ¬ vis st src)
    (hinv3 : tg_inv A st3)
    (hvis3 : ∀ i, vis st3 i ↔ (vis st i ∨ i = src))
    (huc3 : uc st3 < fuel) :
    ∃ st2, (tg_child (tg_helper A fuel) node.n0 node.s0 src st3).bind
        (tg_child (tg_helper A fuel) node.n1 node.s1 src) = some st2 ∧
      tg_inv A st2 ∧
      (∀ i, vis st2 i ↔ (vis st i ∨ reach_avoid A (vis st) src i)) ∧
      (∀ s, st3.start = some s → st2.start = some s) := by
  have hvis3src : vis st3 src := (hvis3 src).mpr (Or.inr rfl)
  have href0 : ∀ v, node.n0 = some v → v < A.length :=
    fun v hv => edge_to_lt hc ⟨node, hnode, Or.inl hv⟩
  have href1 : ∀ v, node.n1 = some v → v < A.length :=
    fun v hv => edge_to_lt hc ⟨node, hnode, Or.inr hv⟩
  obtain ⟨st4, heq0, hinv4, hchar0, hstart0⟩ :=
    tg_child_spec ih hvis3src hinv3 huc3 href0
  have hmono04 : ∀ i, vis st3 i → vis st4 i :=
    fun i h => (hchar0 i).mpr (Or.inl h)
  have hvis4src : vis st4 src := hmono04 src hvis3src
  have huc4 : uc st4 ≤ uc st3 :=
    cnt_mono st3.visited st4.visited
      (by rw [hinv3.vlen, hinv4.vlen]) hmono04
  obtain ⟨st2, heq1, hinv2, hchar1, hstart1⟩ :=
    tg_child_spec ih hvis4src hinv4 (by omega) href1
  have habs3 : ∀ j, vis st3 j → vis st j ∨ reach_avoid A (vis st) src j := by
    intro j h
    rcases (hvis3 j).mp h with h | rfl
    · exact Or.inl h
    · exact Or.inr reach_avoid.refl
  have hsub3 : ∀ j, vis st j → vis st3 j := fun j h => (hvis3 j).mpr (Or.inl h)
  have hfwd4 : ∀ j, vis st4 j → vis st j ∨ reach_avoid A (vis st) src j := by
    intro j h
    rcases (hchar0 j).mp h with h | ⟨v, hn0, hra⟩
    · exact habs3 j h
    · exact Or.inr (ra_mono_absorb hsub3 habs3
        (reach_avoid.step reach_avoid.refl hnV ⟨node, hnode, Or.inl hn0⟩) hra)
  have hsub4 : ∀ j, vis st j → vis st4 j := fun j h => hmono04 j (hsub3 j h)
  have hfwd2 : ∀ j, vis st2 j → vis st j ∨ reach_avoid A (vis st) src j := by
    intro j h
    rcases (hchar1 j).mp h with h | ⟨v, hn1, hra⟩
    · exact hfwd4 j h
    · exact Or.inr (ra_mono_absorb hsub4 hfwd4
        (reach_avoid.step reach_avoid.refl hnV ⟨node, hnode, Or.inr hn1⟩) hra)
  have hmono42 : ∀ j, vis st4 j → vis st2 j :=
    fun j h => (hchar1 j).mpr (Or.inl h)
  refine ⟨st2, ?_, hinv2, ?_, ?_⟩
  · rw [heq0, Option.some_bind, heq1]
  · intro i
    constructor
    · exact hfwd2 i
    · rintro (h | hra)
      · exact hmono42 i (hsub4 i h)
      · induction hra with
        | refl => exact hmono42 src hvis4src
        | @step u w h1 h2 h3 ih2 =>
          by_cases hus : u = src
          · subst hus
            rcases edge_to_elim_at hnode h3 with h0 | h1'
            · exact hmono42 w ((hchar0 w).mpr (Or.inr ⟨w, h0, reach_avoid.refl⟩))
            · exact (hchar1 w).mpr (Or.inr ⟨w, h1', reach_avoid.refl⟩)
          · by_cases h4u : vis st4 u
            · rcases (hchar0 u).mp h4u with h3' | ⟨v, hn0, hra2⟩
              · rcases (hvis3 u).mp h3' with h | rfl
                · exact absurd h h2
                · exact absurd rfl hus
              · have hn3u : ¬ vis st3 u := by
                  intro h3''
                  rcases (hvis3 u).mp h3'' with h | rfl
                  · exact h2 h
                  · exact hus rfl
                exact hmono42 w ((hchar0 w).mpr
                  (Or.inr ⟨v, hn0, reach_avoid.step hra2 hn3u h3⟩))
            · rcases (hchar1 u).mp ih2 with h4 | ⟨v, hn1, hra2⟩
              · exact absurd h4 h4u
              · exact (hchar1 w).mpr
                  (Or.inr ⟨v, hn1, reach_avoid.step hra2 h4u h3⟩)
  · intro s hs
    exact hstart1 s (hstart0 s hs)
theorem tg_spec {A : List NFANode} (hc : closed_arena A) :
    ∀ (fuel src : Nat) (st : TGState), src < A.length → tg_inv A st →
    uc st < fuel →
    ∃ st2, tg_helper A fuel src st = some st2 ∧ tg_inv A st2 ∧
      (∀ i, vis st2 i ↔ (vis st i ∨ reach_avoid A (vis st) src i)) ∧
      (∀ s, st.start = some s → st2.start = some s) ∧
      (st.start = none → ¬ vis st src → ∃ s2, st2.start = some s2) := by
  intro fuel
  induction fuel with
  | zero =>
    intro src st _ _ huc
    exact absurd huc (by omega)
  | succ fuel ih =>
    intro src st hsrc hinv huc
    have ih4 : ∀ (src : Nat) (st : TGState), src < A.length → tg_inv A st →
        uc st < fuel →
        ∃ st2, tg_helper A fuel src st = some st2 ∧ tg_inv A st2 ∧
          (∀ i, vis st2 i ↔ (vis st i ∨ reach_avoid A (vis st) src i)) ∧
          (∀ s, st.start = some s → st2.start = some s) := by
      intro src' st' h1 h2 h3
      obtain ⟨st2, ha, hb, hcc, hd, -⟩ := ih src' st' h1 h2 h3
      exact ⟨st2, ha, hb, hcc, hd⟩
    have hsrcv : src < st.visited.length := by
      rw [hinv.vlen]
      exact hsrc
    obtain ⟨b, hv⟩ := get?_total hsrcv
    rcases b with _ | _
    · -- unvisited: create the node and visit its two neighbour slots
      obtain ⟨node, hnode⟩ := get?_total (l := A) hsrc
      have hnV : ¬ vis st src := by
        intro h2
        have h3 : st.visited.get? src = some true := h2
        rw [hv] at h3
        exact Bool.noConfusion (Option.some.inj h3)
      rcases hstart : st.start with _ | s
      · have heq : tg_helper A (fuel + 1) src st =
            (tg_child (tg_helper A fuel) node.n0 node.s0 src
              ⟨st.visited.set src true, st.ids.set src (some st.adj.length),
               st.adj ++ [[]],
               flag_or_final (flag_or_start
                 (st.flags ++ [(⟨false, false, false⟩ : Flags)]) st.adj.length)
                 st.adj.length
                 (decide (node.n0 = none) && decide (node.n1 = none)),
               some st.adj.length⟩).bind
              (tg_child (tg_helper A fuel) node.n1 node.s1 src) := by
          rw [tg_helper, hv, hnode, hstart]
          rfl
        have hinv3 := tg_create_none hinv hv hnode hstart
        have huc3 : uc (⟨st.visited.set src true,
            st.ids.set src (some st.adj.length), st.adj ++ [[]],
            flag_or_final (flag_or_start
              (st.flags ++ [(⟨false, false, false⟩ : Flags)]) st.adj.length)
              st.adj.length
              (decide (node.n0 = none) && decide (node.n1 = none)),
            some st.adj.length⟩ : TGState) + 1 = uc st :=
          cnt_set_true st.visited src hv
        have hvis3 : ∀ i, vis (⟨st.visited.set src true,
            st.ids.set src (some st.adj.length), st.adj ++ [[]],
            flag_or_final (flag_or_start
              (st.flags ++ [(⟨false, false, false⟩ : Flags)]) st.adj.length)
              st.adj.length
              (decide (node.n0 = none) && decide (node.n1 = none)),
            some st.adj.length⟩ : TGState) i ↔ (vis st i ∨ i = src) := by
          intro i
          by_cases his : i = src
          · subst his
            refine ⟨fun _ => Or.inr rfl, fun _ => ?_⟩
            exact List.get?_set_eq_of_lt _ hsrcv
          · have hne : (st.visited.set src true).get? i = st.visited.get? i :=
              List.get?_set_ne _ _ (fun he => his he.symm)
            constructor
            · intro h
              have h2 : (st.visited.set src true).get? i = some true := h
              rw [hne] at h2
              exact Or.inl h2
            · rintro (h | rfl)
              · show (st.visited.set src true).get? i = some true
                rw [hne]
                exact h
              · exact absurd rfl his
        obtain ⟨st2, heq2, hinv2, hchar2, hstart2⟩ :=
          tg_visit_children hc ih4 hnode hnV hinv3 hvis3 (by omega)
        refine ⟨st2, ?_, hinv2, hchar2, ?_, ?_⟩
        · rw [heq, heq2]
        · intro s hs
          exact Option.noConfusion hs
        · intro _ _
          exact ⟨st.adj.length, hstart2 st.adj.length rfl⟩
      · have heq : tg_helper A (fuel + 1) src st =
            (tg_child (tg_helper A fuel) node.n0 node.s0 src
              ⟨st.visited.set src true, st.ids.set src (some st.adj.length),
               st.adj ++ [[]],
               flag_or_final (st.flags ++ [(⟨false, false, false⟩ : Flags)])
                 st.adj.length
                 (decide (node.n0 = none) && decide (node.n1 = none)),
               st.start⟩).bind
              (tg_child (tg_helper A fuel) node.n1 node.s1 src) := by
          rw [tg_helper, hv, hnode, hstart]
          rfl
        have hinv3 := tg_create_some hinv hv hnode hstart
        have huc3 : uc (⟨st.visited.set src true,
            st.ids.set src (some st.adj.length), st.adj ++ [[]],
            flag_or_final (st.flags ++ [(⟨false, false, false⟩ : Flags)])
              st.adj.length
              (decide (node.n0 = none) && decide (node.n1 = none)),
            st.start⟩ : TGState) + 1 = uc st :=
          cnt_set_true st.visited src hv
        have hvis3 : ∀ i, vis (⟨st.visited.set src true,
            st.ids.set src (some st.adj.length), st.adj ++ [[]],
            flag_or_final (st.flags ++ [(⟨false, false, false⟩ : Flags)])
              st.adj.length
              (decide (node.n0 = none) && decide (node.n1 = none)),
            st.start⟩ : TGState) i ↔ (vis st i ∨ i = src) := by
          intro i
          by_cases his : i = src
          · subst his
            refine ⟨fun _ => Or.inr rfl, fun _ => ?_⟩
            exact List.get?_set_eq_of_lt _ hsrcv
          · have hne : (st.visited.set src true).get? i = st.visited.get? i :=
              List.get?_set_ne _ _ (fun he => his he.symm)
            constructor
            · intro h
              have h2 : (st.visited.set src true).get? i = some true := h
              rw [hne] at h2
              exact Or.inl h2
            · rintro (h | rfl)
              · show (st.visited.set src true).get? i = some true
                rw [hne]
                exact h
              · exact absurd rfl his
        obtain ⟨st2, heq2, hinv2, hchar2, hstart2⟩ :=
          tg_visit_children hc ih4 hnode hnV hinv3 hvis3 (by omega)
        refine ⟨st2, ?_, hinv2, hchar2, ?_, ?_⟩
        · rw [heq, heq2]
        · intro s2 hs2
          injection hs2 with hs2
          subst hs2
          exact hstart2 s hstart
        · intro h _
          exact Option.noConfusion h
    · -- already visited: the helper returns the state unchanged
      have hvis : vis st src := hv
      refine ⟨st, ?_, hinv, ?_, fun s hs => hs, ?_⟩
      · rw [tg_helper, hv]
      · intro i
        constructor
        · exact Or.inl
        · rintro (h | hra)
          · exact h
          · rw [ra_no_steps hvis hra]
            exact hvis
      · intro _ h2
        exact absurd hvis h2
theorem tg_inv_init {A : List NFANode} :
    tg_inv A ⟨List.replicate A.length false, List.replicate A.length none,
      [], [], none⟩ := by
  refine ⟨?_, ?_, rfl, ?_, ?_, ?_, ?_, ?_, ?_, ?_, ?_⟩
  · exact List.length_replicate _ _
  · exact List.length_replicate _ _
  · intro i id hi
    exact Option.noConfusion (repl_get A.length i (some id) hi)
  · intro i id hi
    exact Option.noConfusion (repl_get A.length i (some id) hi)
  · intro i hi
    exact Bool.noConfusion (repl_get A.length i true hi)
  · intro id hid
    exact absurd hid (by simp)
  · intro i j id hi _
    exact Option.noConfusion (repl_get A.length i (some id) hi)
  · intro i id f hi _
    exact Option.noConfusion (repl_get A.length i (some id) hi)
  · intro _ f hf
    cases hf
  · intro s hs
    exact Option.noConfusion hs

theorem to_graph_counts {A : List NFANode} {root : Nat} (hc : closed_arena A)
    {top : NFAFragment} (htop : top.start = root) (hfr : frag_inv A top) :
    ∃ g : Graph, to_graph A root = some g ∧
      g.flags.countP (fun f => f.start) = 1 ∧
      g.flags.countP (fun f => f.final) = 1 := by
  have hroot : root < A.length := by
    rw [← htop]
    exact hfr.1
  have huc0 : uc (⟨List.replicate A.length false, List.replicate A.length none,
      [], [], none⟩ : TGState) = A.length := cnt_replicate A.length
  obtain ⟨st2, heq, hinv2, hchar, hpres, hnone⟩ :=
    tg_spec hc (A.length + 1) root
      ⟨List.replicate A.length false, List.replicate A.length none, [], [], none⟩
      hroot tg_inv_init (by omega)
  have hvis0 : ∀ i, ¬ vis (⟨List.replicate A.length false,
      List.replicate A.length none, [], [], none⟩ : TGState) i := by
    intro i h
    exact Bool.noConfusion (repl_get A.length i true h)
  obtain ⟨s, hs⟩ := hnone rfl (hvis0 root)
  have hchar2 : ∀ i, vis st2 i ↔ reach A root i := by
    intro i
    rw [hchar i]
    constructor
    · rintro (h | h)
      · exact absurd h (hvis0 i)
      · exact (ra_reach hvis0).mp h
    · intro h
      exact Or.inr ((ra_reach hvis0).mpr h)
  refine ⟨⟨st2.adj, st2.flags, s⟩, ?_, ?_, ?_⟩
  · unfold to_graph
    rw [heq, Option.some_bind, hs]
  · obtain ⟨hslt, huniq⟩ := hinv2.start_some s hs
    exact countP_eq_one_of_unique _ st2.flags s hslt huniq
  · have hvfin : vis st2 top.finish := (hchar2 top.finish).mpr
      (by rw [← htop]; exact hfr.2.2.2.1)
    obtain ⟨idf, hidf⟩ := hinv2.vis_id top.finish hvfin
    have hidflt : idf < st2.flags.length := hinv2.id_lt _ _ hidf
    refine countP_eq_one_of_unique _ st2.flags idf hidflt ?_
    intro id f hf
    have hidlt : id < st2.flags.length := get?_lt_of_some hf
    obtain ⟨i, hi⟩ := hinv2.surj id hidlt
    have hfin := hinv2.fin_ok i id f hi hf
    constructor
    · intro hft
      have hdang : dangling A i := by
        have h2 : decide (dangling A i) = true := by
          rw [← hfin]
          exact hft
        exact of_decide_eq_true h2
      have hreach : reach A root i := (hchar2 i).mp (hinv2.id_vis i id hi)
      have hieq : i = top.finish := hfr.2.2.2.2 i
        (by rw [htop]; exact hreach) hdang
      subst hieq
      rw [hi] at hidf
      injection hidf with h3
      injection h3 with h3
    · intro hid
      subst hid
      have hieq : i = top.finish := hinv2.inj i top.finish id hi hidf
      subst hieq
      rw [hfin]
      exact decide_eq_true hfr.2.2.1

/-- C8: for every postfix input on which the Thompson builder succeeds, the
NFA graph it produces from the returned entry node (before epsilon
elimination) has exactly one state flagged START and exactly one state
flagged FINAL. -/
theorem c8_one_start_one_final {p : List Char} {A : List NFANode} {root : Nat}
    (h : get_nfa p = some (A, root)) :
    ∃ g : Graph, to_graph A root = some g ∧
      g.flags.countP (fun f => f.start) = 1 ∧
      g.flags.countP (fun f => f.final) = 1 := by
  obtain ⟨hc, top, htop, hfr⟩ := get_nfa_frag h
  exact to_graph_counts hc htop hfr

/-- C8 witness: the builder succeeds on the postfix "a" and the resulting
graph indeed has one START and one FINAL flag. -/
theorem c8_one_start_one_final_witness :
    get_nfa "a".toList = some ([zero_node, ⟨some 0, none, 'a', S_LAMBDA⟩], 1) ∧
    ∃ g : Graph, to_graph [zero_node, ⟨some 0, none, 'a', S_LAMBDA⟩] 1 = some g ∧
      g.flags.countP (fun f => f.start) = 1 ∧
      g.flags.countP (fun f => f.final) = 1 :=
  ⟨by decide, @c8_one_start_one_final "a".toList
    [zero_node, ⟨some 0, none, 'a', S_LAMBDA⟩] 1 (by decide)⟩
